import Mathlib

/-!
Verification of the hybrid stack/heap container library (`ReArr` and `ComboVec`).

The embedding mirrors `src/re_arr.rs` and `src/combo_vec.rs`:

* `ReArr α` models `ReArr<T, N>`: a fixed array `arr : [Option<T>; N]` together
  with `arr_len`.  The array is modeled as a `List (Option α)` whose length is
  the capacity `N`; `arr_len ≤ N` is carried as a structure field, since in the
  Rust type it holds in every constructible value (`push` panics by
  out-of-bounds indexing before `arr_len` could exceed `N`).
* Operations that can panic in Rust (out-of-bounds indexing or slicing,
  `unwrap`, the `assert!` in `resize`) return `Option`, with `none` for the
  panic.
* `ComboVec α` models `ComboVec<T, N>`: a `ReArr` plus a growable `Vec<T>`,
  modeled as a `List α`.
* Stateful closures (`FnMut() -> T`) are modeled as explicit state passing:
  a state type `σ` and a step function `σ → σ × α`.
-/

/-- Read slot `i` of an option array: in range gives the slot content,
out of range gives `none`.  This is `arr.get(i).and_then(|x| x.as_ref())`
from the Rust side, flattened. -/
def getO (l : List (Option α)) (i : Nat) : Option α := (l[i]?).getD none

theorem getO_eq_none_of_le {l : List (Option α)} {i : Nat} (h : l.length ≤ i) :
    getO l i = none := by
  simp [getO, List.getElem?_eq_none h]

theorem getO_set_self {l : List (Option α)} {i : Nat} {a : Option α}
    (h : i < l.length) : getO (l.set i a) i = a := by
  simp [getO, List.getElem?_set_self h]

theorem getO_set_ne {l : List (Option α)} {i j : Nat} {a : Option α}
    (h : i ≠ j) : getO (l.set i a) j = getO l j := by
  simp [getO, List.getElem?_set_ne h]

theorem getO_append {l₁ l₂ : List (Option α)} {i : Nat} :
    getO (l₁ ++ l₂) i = if i < l₁.length then getO l₁ i else getO l₂ (i - l₁.length) := by
  by_cases h : i < l₁.length
  · simp [getO, h, List.getElem?_append_left h]
  · simp [getO, h, List.getElem?_append_right (Nat.le_of_not_lt h)]

theorem getO_replicate {n : Nat} {a : Option α} {i : Nat} :
    getO (List.replicate n a) i = if i < n then a else none := by
  by_cases h : i < n <;> simp [getO, List.getElem?_replicate, h]

theorem getO_map_some {l : List α} {i : Nat} :
    getO (l.map some) i = l[i]? := by
  by_cases h : i < l.length
  · simp [getO, List.getElem?_map]
    rw [List.getElem?_eq_getElem h]
    simp
  · rw [getO_eq_none_of_le (by simpa using Nat.le_of_not_lt h)]
    rw [List.getElem?_eq_none (Nat.le_of_not_lt h)]

theorem getO_take {l : List (Option α)} {n i : Nat} (h : i < n) :
    getO (l.take n) i = getO l i := by
  simp [getO, List.getElem?_take_of_lt h]

/-- Length of the leading all-`Some` segment of an option array.  This is the
loop in `ReArr::from_arr_and_len`, which advances `arr_len` while slots are
`Some`. -/
def somePrefixLen : List (Option α) → Nat
  | [] => 0
  | none :: _ => 0
  | some _ :: rest => somePrefixLen rest + 1

theorem somePrefixLen_le_length (l : List (Option α)) : somePrefixLen l ≤ l.length := by
  induction l with
  | nil => simp [somePrefixLen]
  | cons x rest ih =>
    cases x with
    | none => simp [somePrefixLen]
    | some v => simpa [somePrefixLen] using ih

theorem somePrefixLen_map_some_append (l : List α) (k : Nat) :
    somePrefixLen (l.map some ++ List.replicate k none) = l.length := by
  induction l with
  | nil =>
    cases k with
    | zero => simp [somePrefixLen]
    | succ m => simp [List.replicate, somePrefixLen]
  | cons x rest ih => simpa [somePrefixLen] using ih

/-- `ReArr<T, N>`: the fixed array of `N` option slots (`arr`, with
`arr.length` playing the role of `N`) and the count `arr_len` of the
leading occupied slots. -/
structure ReArr (α : Type) : Type where
  arr : List (Option α)
  arr_len : Nat
  hlen : arr_len ≤ arr.length

namespace ReArr

/-- `ReArr::new`: all slots `None`, `arr_len = 0`. -/
def new (α : Type) (n : Nat) : ReArr α :=
  ⟨List.replicate n none, 0, Nat.zero_le _⟩

/-- `ReArr::from_arr`: take the array as-is and set `arr_len = N`. -/
def from_arr (l : List (Option α)) : ReArr α :=
  ⟨l, l.length, Nat.le_refl _⟩

/-- `ReArr::from_arr_and_len`: take the array as-is and set `arr_len` to the
length of the leading all-`Some` segment. -/
def from_arr_and_len (l : List (Option α)) : ReArr α :=
  ⟨l, somePrefixLen l, somePrefixLen_le_length l⟩

/-- `ReArr::len`. -/
def len (r : ReArr α) : Nat := r.arr_len

/-- `ReArr::capacity` (the const generic `N`). -/
def capacity (r : ReArr α) : Nat := r.arr.length

/-- `ReArr::is_empty`. -/
def is_empty (r : ReArr α) : Bool := r.arr_len == 0

/-- `ReArr::push`: `self.arr[self.arr_len] = Some(val); self.arr_len += 1`.
The indexing panics (`none`) when the array is full. -/
def push (r : ReArr α) (v : α) : Option (ReArr α) :=
  if h : r.arr_len < r.arr.length then
    some ⟨r.arr.set r.arr_len (some v), r.arr_len + 1, by
      rw [List.length_set]; exact h⟩
  else none

/-- `ReArr::pop`: if empty return `None` and leave the array unchanged, else
decrement `arr_len` and `take()` the slot there. -/
def pop (r : ReArr α) : Option α × ReArr α :=
  if r.arr_len = 0 then (none, r)
  else (getO r.arr (r.arr_len - 1),
    ⟨r.arr.set (r.arr_len - 1) none, r.arr_len - 1, by
      rw [List.length_set]; exact Nat.le_trans (Nat.sub_le _ _) r.hlen⟩)

/-- `ReArr::get`: `self.arr.get(idx).and_then(|item| item.as_ref())`. -/
def get (r : ReArr α) (idx : Nat) : Option α := getO r.arr idx

/-- `ReArr::truncate`: `self.arr[len..]` is set to `None` (this slicing panics
when `len > N`), then `arr_len = min(arr_len, len)`. -/
def truncate (r : ReArr α) (len : Nat) : Option (ReArr α) :=
  if h : len ≤ r.arr.length then
    some ⟨r.arr.take len ++ List.replicate (r.arr.length - len) none,
      min r.arr_len len, by
        rw [List.length_append, List.length_take, List.length_replicate]
        omega⟩
  else none

/-- `ReArr::clear`: every slot becomes `None` and `arr_len = 0`. -/
def clear (r : ReArr α) : ReArr α :=
  ⟨List.replicate r.arr.length none, 0, Nat.zero_le _⟩

/-- The shifting loop of `ReArr::remove`:
`for i in index..arr_len - 1 { arr[i] = arr[i + 1].take(); }`,
with the iteration count as fuel. -/
def shiftTake : List (Option α) → Nat → Nat → List (Option α)
  | l, _, 0 => l
  | l, i, k + 1 => shiftTake ((l.set i (getO l (i + 1))).set (i + 1) none) (i + 1) k

theorem shiftTake_length (k : Nat) :
    ∀ (l : List (Option α)) (i : Nat), (shiftTake l i k).length = l.length := by
  induction k with
  | zero => intro l i; rfl
  | succ k ih =>
    intro l i
    rw [shiftTake, ih, List.length_set, List.length_set]

/-- `ReArr::remove`: take the value at `index` (panicking when `index` is out
of bounds or the slot is empty), shift subsequent slots left one by one, and
decrement `arr_len` (which underflows, hence panics, when `arr_len = 0`). -/
def remove (r : ReArr α) (index : Nat) : Option (α × ReArr α) :=
  if index < r.arr.length then
    match getO r.arr index with
    | none => none
    | some v =>
      if r.arr_len = 0 then none
      else some (v, ⟨shiftTake (r.arr.set index none) index (r.arr_len - 1 - index),
        r.arr_len - 1, by
          rw [shiftTake_length, List.length_set]
          exact Nat.le_trans (Nat.sub_le _ _) r.hlen⟩)
  else none

/-- `ReArr::swap_remove`: `let last = self.pop().unwrap();
self.arr[index].replace(last).unwrap()`.  Both `unwrap`s and the indexing can
panic. -/
def swap_remove (r : ReArr α) (index : Nat) : Option (α × ReArr α) :=
  match r.pop with
  | (none, _) => none
  | (some last, r1) =>
    if index < r1.arr.length then
      match getO r1.arr index with
      | none => none
      | some old => some (old, ⟨r1.arr.set index (some last), r1.arr_len, by
          rw [List.length_set]; exact r1.hlen⟩)
    else none

/-- `slice::fill` on `arr[lo..hi]`: every slot whose position is in
`[lo, hi)` becomes `v`; the rest are unchanged. -/
def fillRange (l : List (Option α)) (lo hi : Nat) (v : Option α) : List (Option α) :=
  l.mapIdx fun i x => if lo ≤ i ∧ i < hi then v else x

theorem fillRange_length (l : List (Option α)) (lo hi : Nat) (v : Option α) :
    (fillRange l lo hi v).length = l.length := by
  simp [fillRange]

theorem getO_fillRange {l : List (Option α)} {lo hi : Nat} {v : Option α} {j : Nat} :
    getO (fillRange l lo hi v) j =
      if j < l.length then (if lo ≤ j ∧ j < hi then v else getO l j) else none := by
  by_cases h : j < l.length
  · simp only [getO, fillRange, List.getElem?_mapIdx, h, if_pos]
    rw [List.getElem?_eq_getElem h]
    by_cases hb : lo ≤ j ∧ j < hi <;> simp [hb, List.getElem?_eq_getElem h]
  · rw [getO_eq_none_of_le (by rw [fillRange_length]; exact Nat.le_of_not_lt h)]
    simp [h]

/-- `ReArr::resize`: asserts `new_len ≤ N` (panic otherwise), then either
fills `arr[arr_len..new_len]` with `Some(val)` (grow) or fills
`arr[new_len..]` with `None` (shrink), and sets `arr_len = new_len`. -/
def resize (r : ReArr α) (new_len : Nat) (v : α) : Option (ReArr α) :=
  if h : new_len ≤ r.arr.length then
    if new_len > r.arr_len then
      some ⟨fillRange r.arr r.arr_len new_len (some v), new_len, by
        rw [fillRange_length]; exact h⟩
    else
      some ⟨fillRange r.arr new_len r.arr.length none, new_len, by
        rw [fillRange_length]; exact h⟩
  else none

/-- `ReArr::resize_with`: like `resize`, but on growth the slice is filled
with `Some(f())` — the closure is called once and its single result fills
every new slot.  The closure is modeled as a state-passing function. -/
def resize_with {σ : Type} (r : ReArr α) (new_len : Nat) (s : σ) (f : σ → σ × α) :
    Option (ReArr α × σ) :=
  if h : new_len ≤ r.arr.length then
    if new_len > r.arr_len then
      some (⟨fillRange r.arr r.arr_len new_len (some (f s).2), new_len, by
        rw [fillRange_length]; exact h⟩, (f s).1)
    else
      some (⟨fillRange r.arr new_len r.arr.length none, new_len, by
        rw [fillRange_length]; exact h⟩, s)
  else none

/-- The loop of `ReArr::from_iter_ref`: up to `n` times, take the next
iterator element and `push` it. -/
def fromIterAux : ReArr α → Nat → List α → Option (ReArr α)
  | r, 0, _ => some r
  | r, _ + 1, [] => some r
  | r, k + 1, x :: xs => (r.push x).bind fun r' => fromIterAux r' k xs

/-- `ReArr::from_iter` (the `FromIterator` impl) via `from_iter_ref`:
start from `ReArr::new` and push up to `N` elements of the iterator. -/
def from_iter (α : Type) (n : Nat) (l : List α) : Option (ReArr α) :=
  fromIterAux (new α n) n l

end ReArr

/-- The loop a per-slot `resize_with` would run, as the claim words it:
fill each of the next `k` slots (starting at position `i`) with the result of
a fresh producer call. -/
def fillEach {σ : Type} : List (Option α) → Nat → Nat → σ → (σ → σ × α) → List (Option α) × σ
  | l, _, 0, s, _ => (l, s)
  | l, i, k + 1, s, f =>
    let p := f s
    fillEach (l.set i (some p.2)) (i + 1) k p.1 f

theorem fillEach_length {σ : Type} (k : Nat) :
    ∀ (l : List (Option α)) (i : Nat) (s : σ) (f : σ → σ × α),
      (fillEach l i k s f).1.length = l.length := by
  induction k with
  | zero => intro l i s f; rfl
  | succ k ih =>
    intro l i s f
    rw [fillEach, ih, List.length_set]

/-- Claim-side definition of `ReArr::resize_with`, following the claim's
words: growth fills each slot in `slots[old_filled_count .. new_len)` with the
result of one fresh `producer()` call per slot (so a stateful producer yields
distinct values per slot).  Used only to compare against the source-side
`ReArr.resize_with`. -/
def ReArr.resize_with_claimed {σ : Type} (r : ReArr α) (new_len : Nat) (s : σ)
    (f : σ → σ × α) : Option (ReArr α × σ) :=
  if h : new_len ≤ r.arr.length then
    if new_len > r.arr_len then
      some (⟨(fillEach r.arr r.arr_len (new_len - r.arr_len) s f).1, new_len, by
        rw [fillEach_length]; exact h⟩,
        (fillEach r.arr r.arr_len (new_len - r.arr_len) s f).2)
    else
      some (⟨ReArr.fillRange r.arr new_len r.arr.length none, new_len, by
        rw [ReArr.fillRange_length]; exact h⟩, s)
  else none

/-- `Vec::swap_remove` on the overflow buffer, with the out-of-bounds panic
as `none`: the element at `i` is returned, the last element is moved into its
place, and the length shrinks by one. -/
def vecSwapRemove (l : List α) (i : Nat) : Option (α × List α) :=
  if h : i < l.length then
    match l.getLast? with
    | none => none
    | some last => some (l.get ⟨i, h⟩, (l.set i last).dropLast)
  else none

/-- `Vec::resize`: truncate to `n`, or append clones of `v` up to length `n`. -/
def vecResize (l : List α) (n : Nat) (v : α) : List α :=
  if n ≤ l.length then l.take n else l ++ List.replicate (n - l.length) v

/-- The appending loop of `Vec::resize_with`: push `k` fresh producer results. -/
def appendWith {σ : Type} : List α → σ → (σ → σ × α) → Nat → List α × σ
  | l, s, _, 0 => (l, s)
  | l, s, f, k + 1 =>
    let p := f s
    appendWith (l ++ [p.2]) p.1 f k

/-- `Vec::resize_with`: truncate to `n`, or append one fresh producer result
per new slot. -/
def vecResizeWith {σ : Type} (l : List α) (n : Nat) (s : σ) (f : σ → σ × α) :
    List α × σ :=
  if n ≤ l.length then (l.take n, s) else appendWith l s f (n - l.length)

/-- `ComboVec<T, N>`: a `ReArr` (the stack part; its capacity is `N`) plus a
`Vec` (the heap part). -/
structure ComboVec (α : Type) : Type where
  arr : ReArr α
  vec : List α

namespace ComboVec

/-- `ComboVec::new`. -/
def new (α : Type) (n : Nat) : ComboVec α := ⟨ReArr.new α n, []⟩

/-- `ComboVec::from_arr`. -/
def from_arr (l : List (Option α)) : ComboVec α := ⟨ReArr.from_arr l, []⟩

/-- `ComboVec::from_arr_and_len`. -/
def from_arr_and_len (l : List (Option α)) : ComboVec α := ⟨ReArr.from_arr_and_len l, []⟩

/-- `ComboVec::stack_len`. -/
def stack_len (c : ComboVec α) : Nat := c.arr.len

/-- `ComboVec::heap_len`. -/
def heap_len (c : ComboVec α) : Nat := c.vec.length

/-- `ComboVec::len`. -/
def len (c : ComboVec α) : Nat := c.stack_len + c.heap_len

/-- `ComboVec::stack_capacity` (the const generic `N`). -/
def stack_capacity (c : ComboVec α) : Nat := c.arr.capacity

/-- `ComboVec::spilled`: `heap_len() > 0`. -/
def spilled (c : ComboVec α) : Bool := decide (0 < c.heap_len)

/-- `ComboVec::is_empty`. -/
def is_empty (c : ComboVec α) : Bool := c.len == 0

/-- `ComboVec::push`: below `N` delegate to the stack array, else push onto
the heap vector. -/
def push (c : ComboVec α) (v : α) : Option (ComboVec α) :=
  if c.len < c.stack_capacity then
    (c.arr.push v).map fun a => ⟨a, c.vec⟩
  else some ⟨c.arr, c.vec ++ [v]⟩

/-- `ComboVec::pop`: pop from the heap vector when it is non-empty, else
delegate to the stack array. -/
def pop (c : ComboVec α) : Option α × ComboVec α :=
  if c.vec.isEmpty then
    ((c.arr.pop).1, ⟨(c.arr.pop).2, c.vec⟩)
  else (c.vec.getLast?, ⟨c.arr, c.vec.dropLast⟩)

/-- `ComboVec::get`: indices below `N` go to the stack array, the rest to the
heap vector at `idx - N`. -/
def get (c : ComboVec α) (idx : Nat) : Option α :=
  if idx < c.stack_capacity then c.arr.get idx
  else c.vec[idx - c.stack_capacity]?

/-- `ComboVec::truncate`: lengths above the current length do nothing;
`len ≥ N` truncates only the heap vector to `len - N`; `len < N` truncates
the stack array and clears the heap vector. -/
def truncate (c : ComboVec α) (len : Nat) : Option (ComboVec α) :=
  if len > c.len then some c
  else if len ≥ c.stack_capacity then some ⟨c.arr, c.vec.take (len - c.stack_capacity)⟩
  else (c.arr.truncate len).map fun a => ⟨a, []⟩

/-- `ComboVec::clear`. -/
def clear (c : ComboVec α) : ComboVec α := ⟨c.arr.clear, []⟩

/-- `ComboVec::remove`: indices at or above `N` remove from the heap vector
(out-of-bounds panics); below `N`, remove from the stack array and, if the
heap vector is non-empty, move its first element into the freed last stack
slot. -/
def remove (c : ComboVec α) (index : Nat) : Option (α × ComboVec α) :=
  if index ≥ c.stack_capacity then
    match c.vec[index - c.stack_capacity]? with
    | none => none
    | some v => some (v, ⟨c.arr, c.vec.eraseIdx (index - c.stack_capacity)⟩)
  else
    (c.arr.remove index).bind fun p =>
      match c.vec with
      | [] => some (p.1, ⟨p.2, []⟩)
      | x :: xs => (p.2.push x).map fun a => (p.1, ⟨a, xs⟩)

/-- `ComboVec::swap_remove`: indices at or above `N` swap-remove in the heap
vector; below `N` with everything on the stack, delegate to the stack array;
otherwise pop the heap vector's last element into slot `index`, returning the
slot's previous value. -/
def swap_remove (c : ComboVec α) (index : Nat) : Option (α × ComboVec α) :=
  if index ≥ c.stack_capacity then
    (vecSwapRemove c.vec (index - c.stack_capacity)).map fun p => (p.1, ⟨c.arr, p.2⟩)
  else if c.len ≤ c.stack_capacity then
    (c.arr.swap_remove index).map fun p => (p.1, ⟨p.2, c.vec⟩)
  else
    match c.vec.getLast? with
    | none => none
    | some last =>
      if index < c.arr.arr.length then
        match getO c.arr.arr index with
        | none => none
        | some old => some (old, ⟨⟨c.arr.arr.set index (some last), c.arr.arr_len, by
            rw [List.length_set]; exact c.arr.hlen⟩, c.vec.dropLast⟩)
      else none

/-- `ComboVec::resize`: for `new_len ≥ N`, first top up the stack array to
full with `val` if the total length is below `N`, then resize the heap vector
to `new_len - N`; for `new_len < N`, resize the stack array down and clear
the heap vector. -/
def resize (c : ComboVec α) (new_len : Nat) (v : α) : Option (ComboVec α) :=
  if new_len ≥ c.stack_capacity then
    (if c.len < c.stack_capacity then c.arr.resize c.stack_capacity v else some c.arr).map
      fun a => ⟨a, vecResize c.vec (new_len - c.stack_capacity) v⟩
  else
    (c.arr.resize new_len v).map fun a => ⟨a, []⟩

/-- The top-up loop of `ComboVec::resize_with`:
`for _ in self.len()..N { self.arr.push(f()); }`, with the iteration count
as fuel and the closure state threaded through. -/
def pushN {σ : Type} : ReArr α → σ → (σ → σ × α) → Nat → Option (ReArr α × σ)
  | r, s, _, 0 => some (r, s)
  | r, s, f, k + 1 =>
    let p := f s
    (r.push p.2).bind fun r' => pushN r' p.1 f k

/-- `ComboVec::resize_with`: for `new_len ≥ N`, push one fresh producer
result per free stack slot, then `Vec::resize_with` the heap vector to
`new_len - N`; for `new_len < N`, delegate to `ReArr::resize_with` and clear
the heap vector. -/
def resize_with {σ : Type} (c : ComboVec α) (new_len : Nat) (s : σ) (f : σ → σ × α) :
    Option (ComboVec α × σ) :=
  if new_len ≥ c.stack_capacity then
    (pushN c.arr s f (c.stack_capacity - c.len)).map fun p =>
      (⟨p.1, (vecResizeWith c.vec (new_len - c.stack_capacity) p.2 f).1⟩,
        (vecResizeWith c.vec (new_len - c.stack_capacity) p.2 f).2)
  else
    (c.arr.resize_with new_len s f).map fun p => (⟨p.1, []⟩, p.2)

/-- `ComboVec::extend`: push each element of the iterator in turn. -/
def extend (c : ComboVec α) : List α → Option (ComboVec α)
  | [] => some c
  | x :: xs => (c.push x).bind fun c' => c'.extend xs

end ComboVec

namespace ReArr

/-- Occupancy invariant of a `ReArr`: a slot is occupied exactly when its
position is below `arr_len`.  Every value the Rust API can build satisfies
this (the `from_arr*` constructors document it as their precondition). -/
def WF (r : ReArr α) : Prop :=
  ∀ i, i < r.arr.length → ((getO r.arr i).isSome ↔ i < r.arr_len)

instance (r : ReArr α) : Decidable r.WF :=
  inferInstanceAs (Decidable (∀ i, i < r.arr.length → ((getO r.arr i).isSome ↔ i < r.arr_len)))

theorem wf_get_none {r : ReArr α} (hWF : r.WF) {i : Nat} (h : r.arr_len ≤ i) :
    r.get i = none := by
  show getO r.arr i = none
  by_cases hi : i < r.arr.length
  · cases hg : getO r.arr i with
    | none => rfl
    | some v =>
      have : i < r.arr_len := (hWF i hi).mp (by rw [hg]; rfl)
      omega
  · exact getO_eq_none_of_le (Nat.le_of_not_lt hi)

theorem wf_get_some {r : ReArr α} (hWF : r.WF) {i : Nat} (h : i < r.arr_len) :
    ∃ v, r.get i = some v := by
  have hi : i < r.arr.length := Nat.lt_of_lt_of_le h r.hlen
  have hs := (hWF i hi).mpr h
  cases hg : getO r.arr i with
  | none => rw [hg] at hs; simp at hs
  | some v => exact ⟨v, hg⟩

theorem push_eq_some {r : ReArr α} {v : α} {r' : ReArr α} (h : r.push v = some r') :
    r.arr_len < r.arr.length ∧ r'.arr = r.arr.set r.arr_len (some v) ∧
      r'.arr_len = r.arr_len + 1 := by
  unfold push at h
  split at h
  · cases h; exact ⟨by assumption, rfl, rfl⟩
  · cases h

theorem push_eq_some_of_lt {r : ReArr α} (v : α) (h : r.arr_len < r.arr.length) :
    ∃ r', r.push v = some r' := by
  unfold push
  rw [dif_pos h]
  exact ⟨_, rfl⟩

theorem push_capacity {r : ReArr α} {v : α} {r' : ReArr α} (h : r.push v = some r') :
    r'.arr.length = r.arr.length := by
  obtain ⟨-, harr, -⟩ := push_eq_some h
  rw [harr, List.length_set]

theorem push_get {r : ReArr α} {v : α} {r' : ReArr α} (h : r.push v = some r') (j : Nat) :
    r'.get j = if j = r.arr_len then some v else r.get j := by
  obtain ⟨hlt, harr, -⟩ := push_eq_some h
  show getO r'.arr j = _
  rw [harr]
  by_cases hj : j = r.arr_len
  · subst hj; rw [getO_set_self hlt, if_pos rfl]
  · rw [getO_set_ne (fun hh => hj hh.symm), if_neg hj]; rfl

theorem push_wf {r : ReArr α} {v : α} {r' : ReArr α} (hWF : r.WF) (h : r.push v = some r') :
    r'.WF := by
  obtain ⟨hlt, harr, hlen'⟩ := push_eq_some h
  intro i hi
  rw [harr, List.length_set] at hi
  rw [harr, hlen']
  by_cases hj : i = r.arr_len
  · subst hj; rw [getO_set_self hlt]; simp
  · rw [getO_set_ne (fun hh => hj hh.symm), hWF i hi]
    omega

theorem pop_of_len_zero {r : ReArr α} (h : r.arr_len = 0) : r.pop = (none, r) := by
  unfold pop; rw [if_pos h]

theorem pop_of_len_pos {r : ReArr α} (h : 0 < r.arr_len) :
    r.pop.1 = r.get (r.arr_len - 1) ∧ r.pop.2.arr = r.arr.set (r.arr_len - 1) none ∧
      r.pop.2.arr_len = r.arr_len - 1 := by
  unfold pop
  rw [if_neg (by omega)]
  exact ⟨rfl, rfl, rfl⟩

theorem pop_capacity (r : ReArr α) : r.pop.2.arr.length = r.arr.length := by
  by_cases h : r.arr_len = 0
  · rw [pop_of_len_zero h]
  · rw [(pop_of_len_pos (by omega)).2.1, List.length_set]

theorem pop_get {r : ReArr α} (h : 0 < r.arr_len) (j : Nat) (hj : j ≠ r.arr_len - 1) :
    r.pop.2.get j = r.get j := by
  show getO r.pop.2.arr j = getO r.arr j
  rw [(pop_of_len_pos h).2.1, getO_set_ne (fun hh => hj hh.symm)]

theorem pop_wf {r : ReArr α} (hWF : r.WF) : r.pop.2.WF := by
  by_cases h : r.arr_len = 0
  · rw [pop_of_len_zero h]; exact hWF
  · obtain ⟨-, harr, hlen⟩ := pop_of_len_pos (show 0 < r.arr_len by omega)
    intro i hi
    rw [harr, List.length_set] at hi
    rw [harr, hlen]
    have hsub : r.arr_len - 1 < r.arr.length :=
      Nat.lt_of_lt_of_le (by omega) r.hlen
    by_cases hj : i = r.arr_len - 1
    · subst hj; rw [getO_set_self hsub]; simp
    · rw [getO_set_ne (fun hh => hj hh.symm), hWF i hi]
      omega

theorem truncate_eq_some {r : ReArr α} {len : Nat} {r' : ReArr α}
    (h : r.truncate len = some r') :
    len ≤ r.arr.length ∧ r'.arr_len = min r.arr_len len ∧
      r'.arr.length = r.arr.length ∧
      ∀ j, r'.get j = if j < len then r.get j else none := by
  unfold truncate at h
  split at h
  case isFalse => cases h
  case isTrue hle =>
  cases h
  refine ⟨hle, rfl, ?_, ?_⟩
  · show (r.arr.take len ++ List.replicate (r.arr.length - len) none).length = _
    rw [List.length_append, List.length_take, List.length_replicate]
    omega
  · intro j
    show getO (r.arr.take len ++ List.replicate (r.arr.length - len) none) j = _
    rw [getO_append, List.length_take, Nat.min_eq_left hle]
    by_cases hj : j < len
    · rw [if_pos hj, if_pos hj, getO_take hj]; rfl
    · rw [if_neg hj, if_neg hj, getO_replicate]
      split <;> rfl

theorem truncate_of_le {r : ReArr α} {len : Nat} (h : len ≤ r.arr.length) :
    ∃ r', r.truncate len = some r' := by
  unfold truncate
  rw [dif_pos h]
  exact ⟨_, rfl⟩

theorem truncate_of_gt {r : ReArr α} {len : Nat} (h : r.arr.length < len) :
    r.truncate len = none := by
  unfold truncate
  rw [dif_neg (by omega)]

theorem truncate_wf {r : ReArr α} {len : Nat} {r' : ReArr α} (hWF : r.WF)
    (h : r.truncate len = some r') : r'.WF := by
  obtain ⟨hle, hlen, hcap, hget⟩ := truncate_eq_some h
  intro i hi
  rw [hcap] at hi
  have := hget i
  rw [show r'.get i = getO r'.arr i from rfl] at this
  rw [this, hlen]
  by_cases hj : i < len
  · rw [if_pos hj, show r.get i = getO r.arr i from rfl, hWF i hi]
    omega
  · rw [if_neg hj]; simp; omega

theorem clear_arr_len (r : ReArr α) : r.clear.arr_len = 0 := rfl

theorem clear_capacity (r : ReArr α) : r.clear.arr.length = r.arr.length := by
  show (List.replicate r.arr.length (none : Option α)).length = r.arr.length
  rw [List.length_replicate]

theorem clear_get (r : ReArr α) (j : Nat) : r.clear.get j = none := by
  show getO (List.replicate r.arr.length none) j = none
  rw [getO_replicate]; split <;> rfl

theorem clear_wf (r : ReArr α) : r.clear.WF := by
  intro i hi
  show (getO (List.replicate r.arr.length none) i).isSome ↔ i < 0
  rw [getO_replicate]
  constructor
  · intro hs; split at hs <;> simp at hs
  · omega

end ReArr

namespace ReArr

theorem getO_shiftTake (k : Nat) :
    ∀ (l : List (Option α)) (i j : Nat),
      getO (shiftTake l i k) j =
        if j < i then getO l j
        else if j < i + k then getO l (j + 1)
        else if j = i + k ∧ 0 < k ∧ j < l.length then none
        else getO l j := by
  induction k with
  | zero =>
    intro l i j
    show getO l j = _
    by_cases h1 : j < i
    · rw [if_pos h1]
    · rw [if_neg h1, if_neg (by omega), if_neg (by rintro ⟨-, h2, -⟩; omega)]
  | succ k ih =>
    intro l i j
    rw [shiftTake, ih]
    have hlen2 : ((l.set i (getO l (i + 1))).set (i + 1) none).length = l.length := by
      rw [List.length_set, List.length_set]
    have hne : ∀ m, m ≠ i → m ≠ i + 1 →
        getO ((l.set i (getO l (i + 1))).set (i + 1) none) m = getO l m := by
      intro m hm1 hm2
      rw [getO_set_ne (fun hh => hm2 hh.symm), getO_set_ne (fun hh => hm1 hh.symm)]
    have hat_i : getO ((l.set i (getO l (i + 1))).set (i + 1) none) i = getO l (i + 1) := by
      by_cases hi : i < l.length
      · rw [getO_set_ne (by omega), getO_set_self hi]
      · rw [getO_set_ne (by omega)]
        rw [List.set_eq_of_length_le (by omega)]
        rw [getO_eq_none_of_le (by omega), getO_eq_none_of_le (by omega)]
    have hat_i1 : getO ((l.set i (getO l (i + 1))).set (i + 1) none) (i + 1) = none := by
      by_cases hi : i + 1 < l.length
      · exact getO_set_self (by rw [List.length_set]; exact hi)
      · rw [List.set_eq_of_length_le (by rw [List.length_set]; omega)]
        rw [getO_set_ne (by omega), getO_eq_none_of_le (by omega)]
    by_cases c1 : j < i
    · rw [if_pos (by omega : j < i + 1), if_pos c1, hne j (by omega) (by omega)]
    · by_cases c2 : j = i
      · subst c2
        rw [if_pos (by omega : j < j + 1), if_neg c1, if_pos (by omega : j < j + (k + 1)),
          hat_i]
      · by_cases c3 : j < i + 1 + k
        · rw [if_neg (by omega : ¬ j < i + 1), if_pos c3,
            if_neg c1, if_pos (by omega : j < i + (k + 1)),
            hne (j + 1) (by omega) (by omega)]
        · by_cases c4 : j = i + 1 + k
          · by_cases c5 : 0 < k ∧ j < l.length
            · rw [if_neg (by omega : ¬ j < i + 1), if_neg (by omega : ¬ j < i + 1 + k),
                if_pos ⟨c4, c5.1, by rw [hlen2]; exact c5.2⟩,
                if_neg c1, if_neg (by omega : ¬ j < i + (k + 1)),
                if_pos ⟨by omega, by omega, c5.2⟩]
            · by_cases ck : k = 0
              · subst ck
                rw [if_neg (by omega : ¬ j < i + 1), if_neg (by omega : ¬ j < i + 1 + 0),
                  if_neg (by rintro ⟨-, h2, -⟩; omega)]
                have hj1 : j = i + 1 := by omega
                subst hj1
                rw [hat_i1, if_neg c1, if_neg (by omega : ¬ i + 1 < i + (0 + 1))]
                by_cases c6 : i + 1 < l.length
                · rw [if_pos ⟨by omega, by omega, c6⟩]
                · rw [if_neg (by rintro ⟨-, -, h3⟩; omega),
                    getO_eq_none_of_le (by omega)]
              · have hk : 0 < k := by omega
                have hjl : ¬ j < l.length := by
                  intro hcon; exact c5 ⟨hk, hcon⟩
                rw [if_neg (by omega : ¬ j < i + 1), if_neg (by omega : ¬ j < i + 1 + k),
                  if_neg (by rw [hlen2]; rintro ⟨-, -, h3⟩; omega),
                  hne j (by omega) (by omega),
                  if_neg c1, if_neg (by omega : ¬ j < i + (k + 1)),
                  if_neg (by rintro ⟨-, -, h3⟩; omega)]
          · rw [if_neg (by omega : ¬ j < i + 1), if_neg (by omega : ¬ j < i + 1 + k),
              if_neg (by rintro ⟨h1, -, -⟩; omega),
              hne j (by omega) (by omega),
              if_neg c1, if_neg (by omega : ¬ j < i + (k + 1)),
              if_neg (by rintro ⟨h1, -, -⟩; omega)]

end ReArr

namespace ReArr

theorem remove_spec {r : ReArr α} {index : Nat} (hWF : r.WF) (h : index < r.arr_len) :
    ∃ v r', r.remove index = some (v, r') ∧ r.get index = some v ∧
      r'.arr_len = r.arr_len - 1 ∧ r'.arr.length = r.arr.length ∧
      ∀ j, r'.get j =
        if j < index then r.get j
        else if j + 1 < r.arr_len then r.get (j + 1)
        else none := by
  have hidx : index < r.arr.length := Nat.lt_of_lt_of_le h r.hlen
  obtain ⟨v, hv⟩ := wf_get_some hWF h
  refine ⟨v, ⟨shiftTake (r.arr.set index none) index (r.arr_len - 1 - index),
      r.arr_len - 1, by
        rw [shiftTake_length, List.length_set]
        exact Nat.le_trans (Nat.sub_le _ _) r.hlen⟩, ?_, hv, rfl, ?_, ?_⟩
  · unfold remove
    rw [if_pos hidx]
    rw [show getO r.arr index = some v from hv]
    exact if_neg (by omega)
  · show (shiftTake (r.arr.set index none) index (r.arr_len - 1 - index)).length = _
    rw [shiftTake_length, List.length_set]
  · intro j
    show getO (shiftTake (r.arr.set index none) index (r.arr_len - 1 - index)) j = _
    rw [getO_shiftTake]
    rw [List.length_set]
    have hik : index + (r.arr_len - 1 - index) = r.arr_len - 1 := by omega
    by_cases c1 : j < index
    · rw [if_pos c1, if_pos c1, getO_set_ne (by omega)]; rfl
    · rw [if_neg c1]
      by_cases c2 : j + 1 < r.arr_len
      · rw [if_pos (by omega), getO_set_ne (by omega), if_pos c2, if_neg c1]; rfl
      · rw [if_neg (by omega : ¬ j < index + (r.arr_len - 1 - index)), if_neg c2]
        by_cases c3 : j = r.arr_len - 1 ∧ 0 < r.arr_len - 1 - index ∧ j < r.arr.length
        · rw [if_pos ⟨by omega, c3.2.1, c3.2.2⟩, if_neg c1]
        · rw [if_neg (fun hc => c3 ⟨by omega, hc.2.1, hc.2.2⟩)]
          by_cases c4 : j = index
          · subst c4; rw [getO_set_self hidx, if_neg c1]
          · rw [getO_set_ne (fun hh => c4 hh.symm), if_neg c1]
            have hge : r.arr_len ≤ j := by
              by_cases c5 : j < r.arr.length
              · by_contra hcon
                push_neg at hcon
                exact c3 ⟨by omega, by omega, c5⟩
              · have := r.hlen; omega
            exact wf_get_none hWF hge

theorem remove_eq_some {r : ReArr α} {index : Nat} {v : α} {r' : ReArr α}
    (h : r.remove index = some (v, r')) :
    index < r.arr.length ∧ getO r.arr index = some v ∧ r.arr_len ≠ 0 := by
  unfold remove at h
  split at h
  case isFalse => cases h
  case isTrue hidx =>
  split at h
  next => cases h
  next w hw =>
    split at h
    case isTrue => cases h
    case isFalse h0 =>
      cases h
      exact ⟨hidx, hw, h0⟩

theorem remove_wf {r : ReArr α} {index : Nat} {v : α} {r' : ReArr α} (hWF : r.WF)
    (h : r.remove index = some (v, r')) : r'.WF := by
  obtain ⟨hidx, hv, -⟩ := remove_eq_some h
  have hlt : index < r.arr_len := (hWF index hidx).mp (by rw [hv]; rfl)
  obtain ⟨v2, r2, heq, -, hlen2, hcap2, hget2⟩ := remove_spec hWF hlt
  rw [heq] at h
  injection h with h1
  injection h1 with hv2 hr2
  subst hr2
  intro i hi
  rw [hcap2] at hi
  have hgi : getO r2.arr i =
      if i < index then r.get i
      else if i + 1 < r.arr_len then r.get (i + 1)
      else none := hget2 i
  rw [hgi, hlen2]
  by_cases c1 : i < index
  · rw [if_pos c1]
    show (getO r.arr i).isSome ↔ _
    rw [hWF i hi]
    omega
  · rw [if_neg c1]
    by_cases c2 : i + 1 < r.arr_len
    · rw [if_pos c2]
      obtain ⟨w, hw⟩ := wf_get_some hWF c2
      show (getO r.arr (i + 1)).isSome ↔ _
      rw [show r.get (i + 1) = getO r.arr (i + 1) from rfl] at hw
      rw [hw]
      simp
      omega
    · rw [if_neg c2]
      simp
      omega

end ReArr

namespace ReArr

theorem swap_remove_eq_of_pop {r r1 : ReArr α} {last : α} (index : Nat)
    (hpop : r.pop = (some last, r1)) :
    r.swap_remove index =
      (if index < r1.arr.length then
        match getO r1.arr index with
        | none => none
        | some old => some (old, ReArr.mk (r1.arr.set index (some last)) r1.arr_len
            (by rw [List.length_set]; exact r1.hlen))
      else none) := by
  unfold swap_remove
  rw [hpop]

theorem swap_remove_spec {r : ReArr α} {index : Nat} (hWF : r.WF) (h : index + 1 < r.arr_len) :
    ∃ old last r', r.swap_remove index = some (old, r') ∧
      r.get index = some old ∧ r.get (r.arr_len - 1) = some last ∧
      r'.arr_len = r.arr_len - 1 ∧ r'.arr.length = r.arr.length ∧
      r'.get index = some last ∧
      ∀ j, j ≠ index → r'.get j = if j + 1 < r.arr_len then r.get j else none := by
  have hpos : 0 < r.arr_len := by omega
  obtain ⟨hfst, harr1, hlen1⟩ := pop_of_len_pos hpos
  obtain ⟨last, hlast⟩ := wf_get_some hWF (show r.arr_len - 1 < r.arr_len by omega)
  obtain ⟨old, hold⟩ := wf_get_some hWF (show index < r.arr_len by omega)
  have hold2 : getO r.arr index = some old := hold
  have hpop : r.pop = (some last, r.pop.2) := by
    calc r.pop = (r.pop.1, r.pop.2) := rfl
    _ = (some last, r.pop.2) := by rw [hfst, hlast]
  have hidx1 : index < r.pop.2.arr.length := by
    rw [harr1, List.length_set]
    have := r.hlen; omega
  have hslot : getO r.pop.2.arr index = some old := by
    rw [harr1, getO_set_ne (by omega)]
    exact hold2
  refine ⟨old, last, ReArr.mk (r.pop.2.arr.set index (some last)) r.pop.2.arr_len
      (by rw [List.length_set]; exact r.pop.2.hlen), ?_, hold, hlast, ?_, ?_, ?_, ?_⟩
  · rw [swap_remove_eq_of_pop index hpop, if_pos hidx1, hslot]
  · show r.pop.2.arr_len = r.arr_len - 1
    exact hlen1
  · show (r.pop.2.arr.set index (some last)).length = r.arr.length
    rw [List.length_set, harr1, List.length_set]
  · show getO (r.pop.2.arr.set index (some last)) index = some last
    rw [getO_set_self hidx1]
  · intro j hj
    show getO (r.pop.2.arr.set index (some last)) j = _
    rw [getO_set_ne (fun hh => hj hh.symm), harr1]
    by_cases c1 : j = r.arr_len - 1
    · subst c1
      rw [getO_set_self (by have := r.hlen; omega), if_neg (by omega)]
    · rw [getO_set_ne (fun hh => c1 hh.symm)]
      by_cases c2 : j + 1 < r.arr_len
      · rw [if_pos c2]; rfl
      · rw [if_neg c2]
        exact wf_get_none hWF (by omega)

theorem swap_remove_none {r : ReArr α} {index : Nat} (hWF : r.WF) (h : r.arr_len ≤ index + 1) :
    r.swap_remove index = none := by
  by_cases h0 : r.arr_len = 0
  · unfold swap_remove
    rw [pop_of_len_zero h0]
  · have hpos : 0 < r.arr_len := by omega
    obtain ⟨hfst, harr1, hlen1⟩ := pop_of_len_pos hpos
    obtain ⟨last, hlast⟩ := wf_get_some hWF (show r.arr_len - 1 < r.arr_len by omega)
    have hpop : r.pop = (some last, r.pop.2) := by
      calc r.pop = (r.pop.1, r.pop.2) := rfl
      _ = (some last, r.pop.2) := by rw [hfst, hlast]
    rw [swap_remove_eq_of_pop index hpop]
    by_cases hidx : index < r.pop.2.arr.length
    · rw [if_pos hidx]
      have hslot : getO r.pop.2.arr index = none := by
        rw [harr1]
        by_cases c1 : index = r.arr_len - 1
        · subst c1
          rw [getO_set_self (by have := r.hlen; omega)]
        · rw [getO_set_ne (fun hh => c1 hh.symm)]
          exact wf_get_none hWF (by omega)
      rw [hslot]
    · rw [if_neg hidx]

theorem swap_remove_wf {r : ReArr α} {index : Nat} {v : α} {r' : ReArr α} (hWF : r.WF)
    (h : r.swap_remove index = some (v, r')) : r'.WF := by
  by_cases hc : index + 1 < r.arr_len
  · obtain ⟨old, last, r2, heq, -, -, hlen2, hcap2, hgeti, hgets⟩ := swap_remove_spec hWF hc
    rw [heq] at h
    injection h with h1
    injection h1 with hv2 hr2
    subst hr2
    intro i hi
    rw [hcap2] at hi
    by_cases c0 : i = index
    · subst c0
      have hgi : getO r2.arr i = some last := hgeti
      rw [hgi, hlen2]
      exact iff_of_true rfl (by omega)
    · have hgi : getO r2.arr i = if i + 1 < r.arr_len then r.get i else none := hgets i c0
      rw [hgi, hlen2]
      by_cases c2 : i + 1 < r.arr_len
      · rw [if_pos c2]
        obtain ⟨w, hw⟩ := wf_get_some hWF (show i < r.arr_len by omega)
        rw [hw]
        exact iff_of_true rfl (by omega)
      · rw [if_neg c2]
        exact iff_of_false (by simp) (by omega)
  · rw [swap_remove_none hWF (by omega)] at h
    cases h

theorem resize_spec {r : ReArr α} {new_len : Nat} {v : α} (hWF : r.WF)
    (h : new_len ≤ r.arr.length) :
    ∃ r', r.resize new_len v = some r' ∧ r'.arr_len = new_len ∧
      r'.arr.length = r.arr.length ∧
      ∀ j, r'.get j =
        if j < min r.arr_len new_len then r.get j
        else if j < new_len then some v
        else none := by
  have hh := r.hlen
  unfold resize
  rw [dif_pos h]
  by_cases hg : r.arr_len < new_len
  · rw [if_pos hg]
    refine ⟨_, rfl, rfl, ?_, ?_⟩
    · show (fillRange r.arr r.arr_len new_len (some v)).length = _
      rw [fillRange_length]
    · intro j
      show getO (fillRange r.arr r.arr_len new_len (some v)) j = _
      rw [getO_fillRange, Nat.min_eq_left (by omega)]
      by_cases c1 : j < r.arr_len
      · rw [if_pos (by omega), if_neg (by omega), if_pos c1]; rfl
      · rw [if_neg c1]
        by_cases c2 : j < new_len
        · rw [if_pos (by omega), if_pos (by omega), if_pos c2]
        · rw [if_neg c2]
          by_cases c3 : j < r.arr.length
          · rw [if_pos c3, if_neg (by omega)]
            exact wf_get_none hWF (by omega)
          · rw [if_neg c3]
  · rw [if_neg hg]
    refine ⟨_, rfl, rfl, ?_, ?_⟩
    · show (fillRange r.arr new_len r.arr.length none).length = _
      rw [fillRange_length]
    · intro j
      show getO (fillRange r.arr new_len r.arr.length none) j = _
      rw [getO_fillRange, Nat.min_eq_right (by omega)]
      by_cases c1 : j < new_len
      · rw [if_pos (by omega), if_neg (by omega), if_pos c1]; rfl
      · rw [if_neg c1, if_neg c1]
        by_cases c3 : j < r.arr.length
        · rw [if_pos c3, if_pos (by omega)]
        · rw [if_neg c3]

theorem resize_none {r : ReArr α} {new_len : Nat} {v : α} (h : r.arr.length < new_len) :
    r.resize new_len v = none := by
  unfold resize
  rw [dif_neg (by omega)]

theorem resize_wf {r : ReArr α} {new_len : Nat} {v : α} {r' : ReArr α} (hWF : r.WF)
    (h : r.resize new_len v = some r') : r'.WF := by
  have hle : new_len ≤ r.arr.length := by
    by_contra hc
    rw [resize_none (by omega)] at h
    cases h
  obtain ⟨r2, heq, hlen2, hcap2, hget2⟩ := @resize_spec α r new_len v hWF hle
  rw [heq] at h
  injection h with h1
  subst h1
  intro i hi
  rw [hcap2] at hi
  have hgi : getO r2.arr i =
      if i < min r.arr_len new_len then r.get i
      else if i < new_len then some v
      else none := hget2 i
  rw [hgi, hlen2]
  by_cases c1 : i < min r.arr_len new_len
  · rw [if_pos c1]
    obtain ⟨w, hw⟩ := wf_get_some hWF (show i < r.arr_len by omega)
    rw [hw]
    exact iff_of_true rfl (by omega)
  · rw [if_neg c1]
    by_cases c2 : i < new_len
    · rw [if_pos c2]
      exact iff_of_true rfl c2
    · rw [if_neg c2]
      exact iff_of_false (by simp) (by omega)

theorem resize_with_eq_resize {σ : Type} (r : ReArr α) (new_len : Nat) (s : σ) (f : σ → σ × α) :
    r.resize_with new_len s f =
      (r.resize new_len (f s).2).map
        (fun a => (a, if r.arr_len < new_len then (f s).1 else s)) := by
  unfold resize_with resize
  by_cases h : new_len ≤ r.arr.length
  · rw [dif_pos h, dif_pos h]
    by_cases hg : r.arr_len < new_len
    · rw [if_pos hg, if_pos hg, if_pos hg]; rfl
    · rw [if_neg hg, if_neg hg, if_neg hg]; rfl
  · rw [dif_neg h, dif_neg h]; rfl

theorem resize_with_spec {σ : Type} {r : ReArr α} {new_len : Nat} {s : σ} {f : σ → σ × α}
    (hWF : r.WF) (h : new_len ≤ r.arr.length) :
    ∃ r', r.resize_with new_len s f =
        some (r', if r.arr_len < new_len then (f s).1 else s) ∧
      r'.arr_len = new_len ∧ r'.arr.length = r.arr.length ∧
      ∀ j, r'.get j =
        if j < min r.arr_len new_len then r.get j
        else if j < new_len then some (f s).2
        else none := by
  obtain ⟨r2, heq, hlen2, hcap2, hget2⟩ := @resize_spec α r new_len (f s).2 hWF h
  refine ⟨r2, ?_, hlen2, hcap2, hget2⟩
  rw [resize_with_eq_resize, heq]
  rfl

theorem resize_with_wf {σ : Type} {r : ReArr α} {new_len : Nat} {s : σ} {f : σ → σ × α}
    {r' : ReArr α} {s' : σ} (hWF : r.WF) (h : r.resize_with new_len s f = some (r', s')) :
    r'.WF := by
  rw [resize_with_eq_resize] at h
  cases hres : r.resize new_len (f s).2 with
  | none => rw [hres] at h; cases h
  | some r2 =>
    rw [hres] at h
    have h2 : some (r2, if r.arr_len < new_len then (f s).1 else s) = some (r', s') := h
    injection h2 with h3
    injection h3 with h4 h5
    subst h4
    exact resize_wf hWF hres

end ReArr

namespace ReArr

theorem fromIterAux_spec (k : Nat) :
    ∀ (l a : List α) (m : Nat) (r : ReArr α),
      r.arr = a.map some ++ List.replicate m none → r.arr_len = a.length → k ≤ m →
      ∃ r', fromIterAux r k l = some r' ∧
        r'.arr = (a ++ l.take (min k l.length)).map some ++
          List.replicate (m - min k l.length) none ∧
        r'.arr_len = a.length + min k l.length := by
  induction k with
  | zero =>
    intro l a m r harr hlen hkm
    refine ⟨r, rfl, ?_, ?_⟩
    · simpa using harr
    · simpa using hlen
  | succ k ih =>
    intro l a m r harr hlen hkm
    cases l with
    | nil =>
      refine ⟨r, rfl, ?_, ?_⟩
      · simpa using harr
      · simpa using hlen
    | cons x xs =>
      have hm : 1 ≤ m := by omega
      have hlt : r.arr_len < r.arr.length := by
        rw [harr, hlen, List.length_append, List.length_map, List.length_replicate]
        omega
      obtain ⟨r1, hr1⟩ := push_eq_some_of_lt x hlt
      obtain ⟨-, harr1, hlen1⟩ := push_eq_some hr1
      have harr1' : r1.arr = (a ++ [x]).map some ++ List.replicate (m - 1) none := by
        rw [harr1, harr, hlen]
        rw [List.set_append_right _ _ (by rw [List.length_map])]
        rw [show a.length - (a.map some).length = 0 by rw [List.length_map]; omega]
        rw [show m = (m - 1) + 1 by omega, List.replicate_succ, List.set_cons_zero]
        rw [List.map_append, List.append_assoc]
        rfl
      have hlen1' : r1.arr_len = (a ++ [x]).length := by
        rw [hlen1, hlen, List.length_append]
        rfl
      obtain ⟨r', hrec, harr', hlen'⟩ :=
        ih xs (a ++ [x]) (m - 1) r1 harr1' hlen1' (by omega)
      have hmin : min (k + 1) (x :: xs).length = min k xs.length + 1 := by
        rw [List.length_cons, Nat.succ_min_succ]
      refine ⟨r', ?_, ?_, ?_⟩
      · show (r.push x).bind (fun r2 => fromIterAux r2 k xs) = some r'
        rw [hr1]
        exact hrec
      · rw [harr', hmin, List.take_succ_cons]
        rw [List.append_cons a x (xs.take (min k xs.length))]
        rw [show m - (min k xs.length + 1) = m - 1 - min k xs.length by omega]
      · rw [hlen', hmin, List.length_append]
        simp
        omega

theorem from_iter_eq (n : Nat) (l : List α) :
    ∃ r, from_iter α n l = some r ∧
      r.arr = (l.take (min n l.length)).map some ++
        List.replicate (n - min n l.length) none ∧
      r.arr_len = min n l.length := by
  have h0 : (new α n).arr = ([] : List α).map some ++ List.replicate n none := by
    show List.replicate n none = _
    simp
  obtain ⟨r, h1, h2, h3⟩ := fromIterAux_spec n l [] n (new α n) h0 rfl (Nat.le_refl n)
  exact ⟨r, h1, by simpa using h2, by simpa using h3⟩

theorem wf_of_shape {r : ReArr α} (a : List α) (k : Nat)
    (harr : r.arr = a.map some ++ List.replicate k none) (hlen : r.arr_len = a.length) :
    r.WF := by
  intro i hi
  rw [harr, hlen, getO_append, List.length_map]
  by_cases h1 : i < a.length
  · rw [if_pos h1, getO_map_some, List.getElem?_eq_getElem h1]
    simp [h1]
  · rw [if_neg h1, getO_replicate]
    constructor
    · intro hs
      split at hs <;> simp at hs
    · omega

theorem wf_new (n : Nat) : (new α n).WF :=
  wf_of_shape [] n (by show List.replicate n none = _; simp) rfl

theorem wf_from_arr (l : List α) : (from_arr (l.map some)).WF :=
  wf_of_shape l 0 (by show l.map some = _; simp) (by show (l.map some).length = _; simp)

theorem wf_from_arr_and_len (l : List α) (k : Nat) :
    (from_arr_and_len (l.map some ++ List.replicate k none)).WF :=
  wf_of_shape l k rfl (somePrefixLen_map_some_append l k)

theorem from_iter_wf {n : Nat} {l : List α} {r : ReArr α} (h : from_iter α n l = some r) :
    r.WF := by
  obtain ⟨r2, h1, h2, h3⟩ := from_iter_eq n l
  rw [h1] at h
  injection h with h4
  subst h4
  refine wf_of_shape (l.take (min n l.length)) (n - min n l.length) h2 ?_
  rw [h3, List.length_take]
  omega

end ReArr

/-- States of a `ReArr` reachable through its public constructors and
operations; the `from_arr*` constructors carry their documented precondition
(the supplied array is a block of `Some`s followed by `None`s). -/
inductive ReachArr (α : Type) : ReArr α → Prop
  | new (n : Nat) : ReachArr α (ReArr.new α n)
  | from_arr (l : List α) : ReachArr α (ReArr.from_arr (l.map some))
  | from_arr_and_len (l : List α) (k : Nat) :
      ReachArr α (ReArr.from_arr_and_len (l.map some ++ List.replicate k none))
  | from_iter (n : Nat) (l : List α) (r : ReArr α) :
      ReArr.from_iter α n l = some r → ReachArr α r
  | push (r r' : ReArr α) (v : α) : ReachArr α r → r.push v = some r' → ReachArr α r'
  | pop (r : ReArr α) : ReachArr α r → ReachArr α r.pop.2
  | truncate (r r' : ReArr α) (n : Nat) : ReachArr α r → r.truncate n = some r' →
      ReachArr α r'
  | clear (r : ReArr α) : ReachArr α r → ReachArr α r.clear
  | remove (r r' : ReArr α) (i : Nat) (v : α) : ReachArr α r →
      r.remove i = some (v, r') → ReachArr α r'
  | swap_remove (r r' : ReArr α) (i : Nat) (v : α) : ReachArr α r →
      r.swap_remove i = some (v, r') → ReachArr α r'
  | resize (r r' : ReArr α) (n : Nat) (v : α) : ReachArr α r →
      r.resize n v = some r' → ReachArr α r'
  | resize_with (σ : Type) (r r' : ReArr α) (n : Nat) (s s' : σ) (f : σ → σ × α) :
      ReachArr α r → r.resize_with n s f = some (r', s') → ReachArr α r'

/-- Every reachable `ReArr` satisfies the occupancy invariant. -/
theorem reachArr_wf {r : ReArr α} (h : ReachArr α r) : r.WF := by
  induction h with
  | new n => exact ReArr.wf_new n
  | from_arr l => exact ReArr.wf_from_arr l
  | from_arr_and_len l k => exact ReArr.wf_from_arr_and_len l k
  | from_iter n l r hiter => exact ReArr.from_iter_wf hiter
  | push r r' v hr heq ih => exact ReArr.push_wf ih heq
  | pop r hr ih => exact ReArr.pop_wf ih
  | truncate r r' n hr heq ih => exact ReArr.truncate_wf ih heq
  | clear r hr ih => exact ReArr.clear_wf r
  | remove r r' i v hr heq ih => exact ReArr.remove_wf ih heq
  | swap_remove r r' i v hr heq ih => exact ReArr.swap_remove_wf ih heq
  | resize r r' n v hr heq ih => exact ReArr.resize_wf ih heq
  | resize_with σ r r' n s s' f hr heq ih => exact ReArr.resize_with_wf ih heq

namespace ComboVec

/-- The no-spill-until-full invariant: the heap vector is non-empty only when
the stack array is full. -/
def Inv (c : ComboVec α) : Prop := 0 < c.heap_len → c.stack_len = c.stack_capacity

/-- Well-formedness of a `ComboVec`: the stack array's occupancy invariant
together with the no-spill-until-full invariant. -/
def WF (c : ComboVec α) : Prop := c.arr.WF ∧ c.Inv

theorem stack_len_def (c : ComboVec α) : c.stack_len = c.arr.arr_len := rfl

theorem heap_len_def (c : ComboVec α) : c.heap_len = c.vec.length := rfl

theorem len_def (c : ComboVec α) : c.len = c.arr.arr_len + c.vec.length := rfl

theorem stack_capacity_def (c : ComboVec α) : c.stack_capacity = c.arr.arr.length := rfl

theorem push_eq_cases {c : ComboVec α} {v : α} {c' : ComboVec α} (h : c.push v = some c') :
    (c.len < c.stack_capacity ∧ ∃ a, c.arr.push v = some a ∧ c' = ⟨a, c.vec⟩) ∨
    (¬ c.len < c.stack_capacity ∧ c' = ⟨c.arr, c.vec ++ [v]⟩) := by
  unfold push at h
  split at h
  case isTrue hlt =>
    left
    cases hp : c.arr.push v with
    | none => rw [hp] at h; cases h
    | some a =>
      rw [hp] at h
      have h2 : some (ComboVec.mk a c.vec) = some c' := h
      injection h2 with h3
      exact ⟨hlt, a, rfl, h3.symm⟩
  case isFalse hlt =>
    right
    injection h with h3
    exact ⟨hlt, h3.symm⟩

theorem push_total (c : ComboVec α) (v : α) : ∃ c', c.push v = some c' := by
  unfold push
  split
  case isTrue hlt =>
    have hl : c.arr.arr_len < c.arr.arr.length := by
      have h1 : c.arr.arr_len + c.vec.length < c.arr.arr.length := hlt
      omega
    obtain ⟨a, ha⟩ := ReArr.push_eq_some_of_lt v hl
    rw [ha]
    exact ⟨_, rfl⟩
  case isFalse => exact ⟨_, rfl⟩

theorem push_wf_cv {c : ComboVec α} {v : α} {c' : ComboVec α} (hWF : c.WF)
    (h : c.push v = some c') : c'.WF := by
  rcases push_eq_cases h with ⟨hlt, a, hp, rfl⟩ | ⟨hge, rfl⟩
  · refine ⟨ReArr.push_wf hWF.1 hp, ?_⟩
    intro hh
    exfalso
    have hh2 : 0 < c.vec.length := hh
    have hInv : c.arr.arr_len = c.arr.arr.length := hWF.2 hh2
    have hlt2 : c.arr.arr_len + c.vec.length < c.arr.arr.length := hlt
    omega
  · refine ⟨hWF.1, ?_⟩
    intro hh
    show c.arr.arr_len = c.arr.arr.length
    by_cases hv : c.vec.length = 0
    · have h1 : ¬ c.arr.arr_len + c.vec.length < c.arr.arr.length := hge
      have h2 := c.arr.hlen
      omega
    · exact hWF.2 (show (0 : Nat) < c.vec.length by omega)

theorem pop_wf_cv {c : ComboVec α} (hWF : c.WF) : c.pop.2.WF := by
  unfold pop
  split
  case isTrue hv =>
    refine ⟨ReArr.pop_wf hWF.1, ?_⟩
    intro hh
    exfalso
    have hnil : c.vec = [] := List.isEmpty_iff.mp hv
    have hh2 : 0 < c.vec.length := hh
    rw [hnil] at hh2
    simp at hh2
  case isFalse hv =>
    refine ⟨hWF.1, ?_⟩
    intro hh
    show c.arr.arr_len = c.arr.arr.length
    apply hWF.2
    show 0 < c.vec.length
    have hne : c.vec ≠ [] := by
      intro hnil
      exact hv (by rw [hnil]; rfl)
    exact List.length_pos.mpr hne

theorem truncate_wf_cv {c : ComboVec α} {n : Nat} {c' : ComboVec α} (hWF : c.WF)
    (h : c.truncate n = some c') : c'.WF := by
  unfold truncate at h
  split at h
  case isTrue =>
    injection h with h1
    subst h1
    exact hWF
  case isFalse hgt =>
    split at h
    case isTrue hge =>
      injection h with h1
      subst h1
      refine ⟨hWF.1, ?_⟩
      intro hh
      show c.arr.arr_len = c.arr.arr.length
      apply hWF.2
      show 0 < c.vec.length
      have hh2 : 0 < (c.vec.take (n - c.stack_capacity)).length := hh
      rw [List.length_take] at hh2
      omega
    case isFalse hlt =>
      cases ht : c.arr.truncate n with
      | none => rw [ht] at h; cases h
      | some a =>
        rw [ht] at h
        have h2 : some (ComboVec.mk a []) = some c' := h
        injection h2 with h3
        subst h3
        refine ⟨ReArr.truncate_wf hWF.1 ht, ?_⟩
        intro hh
        exact absurd hh (by simp [heap_len_def])

theorem clear_wf_cv (c : ComboVec α) : c.clear.WF := by
  refine ⟨ReArr.clear_wf c.arr, ?_⟩
  intro hh
  exact absurd hh (by simp [heap_len_def, clear])

end ComboVec

namespace ComboVec

theorem remove_wf_cv {c : ComboVec α} {i : Nat} {v : α} {c' : ComboVec α} (hWF : c.WF)
    (h : c.remove i = some (v, c')) : c'.WF := by
  unfold remove at h
  split at h
  case isTrue hge =>
    split at h
    next => cases h
    next w hw =>
      injection h with h2
      injection h2 with h3 h4
      subst h4
      refine ⟨hWF.1, ?_⟩
      intro hh
      apply hWF.2
      show 0 < c.vec.length
      have hh2 : 0 < (c.vec.eraseIdx (i - c.stack_capacity)).length := hh
      cases hcv : c.vec with
      | nil => rw [hcv] at hh2; simp at hh2
      | cons y ys => simp [hcv]
  case isFalse hlt =>
    cases hr : c.arr.remove i with
    | none => rw [hr] at h; cases h
    | some p =>
      rw [hr] at h
      have hr2 : c.arr.remove i = some (p.1, p.2) := by rw [hr]
      cases hcv : c.vec with
      | nil =>
        rw [hcv] at h
        have h2 : some (p.1, ComboVec.mk p.2 []) = some (v, c') := h
        injection h2 with h3
        injection h3 with h4 h5
        subst h5
        refine ⟨ReArr.remove_wf hWF.1 hr2, ?_⟩
        intro hh
        exact absurd hh (by simp [heap_len_def])
      | cons x xs =>
        rw [hcv] at h
        have hb : Option.map (fun a => (p.1, ComboVec.mk a xs)) (p.2.push x)
            = some (v, c') := h
        cases hp : p.2.push x with
        | none => rw [hp] at hb; cases hb
        | some a =>
          rw [hp] at hb
          have h2 : some (p.1, ComboVec.mk a xs) = some (v, c') := hb
          injection h2 with h3
          injection h3 with h4 h5
          subst h5
          refine ⟨ReArr.push_wf (ReArr.remove_wf hWF.1 hr2) hp, ?_⟩
          intro hh
          show a.arr_len = a.arr.length
          obtain ⟨hidx, hslot, h0⟩ := ReArr.remove_eq_some hr2
          have hN : c.arr.arr_len = c.arr.arr.length :=
            hWF.2 (show 0 < c.vec.length by rw [hcv]; simp)
          have hlt2 : i < c.arr.arr_len := (hWF.1 i hidx).mp (by rw [hslot]; rfl)
          obtain ⟨v2, r2, heq2, -, hlen2, hcap2, -⟩ := ReArr.remove_spec hWF.1 hlt2
          rw [heq2] at hr2
          injection hr2 with h6
          injection h6 with h7 h8
          obtain ⟨-, harr3, hlen3⟩ := ReArr.push_eq_some hp
          rw [hlen3, harr3, List.length_set, ← h8, hlen2, hcap2]
          omega

theorem swap_remove_wf_cv {c : ComboVec α} {i : Nat} {v : α} {c' : ComboVec α} (hWF : c.WF)
    (h : c.swap_remove i = some (v, c')) : c'.WF := by
  unfold swap_remove at h
  split at h
  case isTrue hge =>
    cases hv : vecSwapRemove c.vec (i - c.stack_capacity) with
    | none => rw [hv] at h; cases h
    | some p =>
      rw [hv] at h
      have h2 : some (p.1, ComboVec.mk c.arr p.2) = some (v, c') := h
      injection h2 with h3
      injection h3 with h4 h5
      subst h5
      refine ⟨hWF.1, ?_⟩
      intro hh
      apply hWF.2
      show 0 < c.vec.length
      unfold vecSwapRemove at hv
      split at hv
      case isTrue hlt2 => omega
      case isFalse => cases hv
  case isFalse hlt =>
    split at h
    case isTrue hle =>
      cases hs : c.arr.swap_remove i with
      | none => rw [hs] at h; cases h
      | some p =>
        rw [hs] at h
        have h2 : some (p.1, ComboVec.mk p.2 c.vec) = some (v, c') := h
        injection h2 with h3
        injection h3 with h4 h5
        subst h5
        refine ⟨ReArr.swap_remove_wf hWF.1 (show c.arr.swap_remove i = some (p.1, p.2) by
          rw [hs]), ?_⟩
        intro hh
        exfalso
        have hh2 : 0 < c.vec.length := hh
        have hN : c.arr.arr_len = c.arr.arr.length := hWF.2 hh2
        have hle2 : c.arr.arr_len + c.vec.length ≤ c.arr.arr.length := hle
        omega
    case isFalse hgt =>
      split at h
      next => cases h
      next last hlast =>
        split at h
        case isTrue hidx =>
          split at h
          next => cases h
          next old hold =>
            injection h with h2
            injection h2 with h3 h4
            subst h4
            have hh2 : 0 < c.vec.length := by
              have hgt2 : ¬ c.arr.arr_len + c.vec.length ≤ c.arr.arr.length := hgt
              have := c.arr.hlen
              omega
            have hN : c.arr.arr_len = c.arr.arr.length := hWF.2 hh2
            constructor
            · intro j hj
              rw [List.length_set] at hj
              show (getO (c.arr.arr.set i (some last)) j).isSome ↔ j < c.arr.arr_len
              by_cases hji : j = i
              · subst hji
                rw [getO_set_self hidx]
                exact iff_of_true rfl (by omega)
              · rw [getO_set_ne (fun hh => hji hh.symm)]
                exact hWF.1 j hj
            · intro hh
              show c.arr.arr_len = (c.arr.arr.set i (some last)).length
              rw [List.length_set]
              exact hN
        case isFalse => cases h

end ComboVec

namespace ComboVec

theorem resize_wf_cv {c : ComboVec α} {n : Nat} {v : α} {c' : ComboVec α} (hWF : c.WF)
    (h : c.resize n v = some c') : c'.WF := by
  unfold resize at h
  split at h
  case isTrue hge =>
    split at h
    case isTrue hlt =>
      cases hres : c.arr.resize c.stack_capacity v with
      | none => rw [hres] at h; cases h
      | some a =>
        rw [hres] at h
        have h2 : some (ComboVec.mk a (vecResize c.vec (n - c.stack_capacity) v))
            = some c' := h
        injection h2 with h3
        subst h3
        refine ⟨ReArr.resize_wf hWF.1 hres, ?_⟩
        intro hh
        show a.arr_len = a.arr.length
        obtain ⟨r2, heq2, hlen2, hcap2, -⟩ :=
          @ReArr.resize_spec α c.arr c.arr.arr.length v hWF.1 (Nat.le_refl c.arr.arr.length)
        rw [show c.arr.resize c.stack_capacity v = c.arr.resize c.arr.arr.length v from rfl,
          heq2] at hres
        injection hres with h4
        subst h4
        rw [hlen2, hcap2]
    case isFalse hge2 =>
      have h2 : some (ComboVec.mk c.arr (vecResize c.vec (n - c.stack_capacity) v))
          = some c' := h
      injection h2 with h3
      subst h3
      refine ⟨hWF.1, ?_⟩
      intro hh
      show c.arr.arr_len = c.arr.arr.length
      by_cases hv : c.vec.length = 0
      · have h4 : ¬ c.arr.arr_len + c.vec.length < c.arr.arr.length := hge2
        have h5 := c.arr.hlen
        omega
      · exact hWF.2 (show (0 : Nat) < c.vec.length by omega)
  case isFalse hlt =>
    cases hres : c.arr.resize n v with
    | none => rw [hres] at h; cases h
    | some a =>
      rw [hres] at h
      have h2 : some (ComboVec.mk a []) = some c' := h
      injection h2 with h3
      subst h3
      refine ⟨ReArr.resize_wf hWF.1 hres, ?_⟩
      intro hh
      exact absurd hh (by simp [heap_len_def])

theorem pushN_spec {σ : Type} (k : Nat) :
    ∀ (r : ReArr α) (s : σ) (f : σ → σ × α), r.arr_len + k ≤ r.arr.length →
      ∃ r' s', pushN r s f k = some (r', s') ∧ r'.arr_len = r.arr_len + k ∧
        r'.arr.length = r.arr.length ∧ (r.WF → r'.WF) ∧
        ∀ j, j < r.arr_len → r'.get j = r.get j := by
  induction k with
  | zero =>
    intro r s f h
    exact ⟨r, s, rfl, by omega, rfl, fun w => w, fun j hj => rfl⟩
  | succ k ih =>
    intro r s f h
    obtain ⟨r1, hr1⟩ := @ReArr.push_eq_some_of_lt α r (f s).2 (by omega)
    obtain ⟨-, harr1, hlen1⟩ := ReArr.push_eq_some hr1
    obtain ⟨r', s', hrec, hl, hc, hw, hg⟩ := ih r1 (f s).1 f
      (by rw [hlen1, harr1, List.length_set]; omega)
    refine ⟨r', s', ?_, ?_, ?_, ?_, ?_⟩
    · show (r.push (f s).2).bind (fun r2 => pushN r2 (f s).1 f k) = some (r', s')
      rw [hr1]
      exact hrec
    · rw [hl, hlen1]
      omega
    · rw [hc, harr1, List.length_set]
    · intro hwf
      exact hw (ReArr.push_wf hwf hr1)
    · intro j hj
      rw [hg j (by omega), ReArr.push_get hr1 j, if_neg (by omega)]

theorem resize_with_wf_cv {σ : Type} {c : ComboVec α} {n : Nat} {s : σ} {f : σ → σ × α}
    {c' : ComboVec α} {s' : σ} (hWF : c.WF) (h : c.resize_with n s f = some (c', s')) :
    c'.WF := by
  unfold resize_with at h
  split at h
  case isTrue hge =>
    have hcap : c.arr.arr_len + (c.stack_capacity - c.len) ≤ c.arr.arr.length := by
      have h1 := c.arr.hlen
      show c.arr.arr_len + (c.arr.arr.length - (c.arr.arr_len + c.vec.length))
          ≤ c.arr.arr.length
      omega
    obtain ⟨r', s2, hpn, hl, hc, hw, -⟩ :=
      pushN_spec (c.stack_capacity - c.len) c.arr s f hcap
    rw [hpn] at h
    have h2 : some (ComboVec.mk r'
        (vecResizeWith c.vec (n - c.stack_capacity) s2 f).1,
        (vecResizeWith c.vec (n - c.stack_capacity) s2 f).2) = some (c', s') := h
    injection h2 with h3
    injection h3 with h4 h5
    subst h4
    refine ⟨hw hWF.1, ?_⟩
    intro hh
    show r'.arr_len = r'.arr.length
    rw [hl, hc]
    show c.arr.arr_len + (c.arr.arr.length - (c.arr.arr_len + c.vec.length))
        = c.arr.arr.length
    by_cases hv : c.vec.length = 0
    · omega
    · have hN : c.arr.arr_len = c.arr.arr.length :=
        hWF.2 (show (0 : Nat) < c.vec.length by omega)
      omega
  case isFalse hlt =>
    cases hres : c.arr.resize_with n s f with
    | none => rw [hres] at h; cases h
    | some p =>
      rw [hres] at h
      have h2 : some (ComboVec.mk p.1 [], p.2) = some (c', s') := h
      injection h2 with h3
      injection h3 with h4 h5
      subst h4
      refine ⟨ReArr.resize_with_wf hWF.1 (show c.arr.resize_with n s f = some (p.1, p.2) by
        rw [hres]), ?_⟩
      intro hh
      exact absurd hh (by simp [heap_len_def])

theorem extend_wf {l : List α} :
    ∀ {c c' : ComboVec α}, c.WF → c.extend l = some c' → c'.WF := by
  induction l with
  | nil =>
    intro c c' hWF h
    injection h with h1
    subst h1
    exact hWF
  | cons x xs ih =>
    intro c c' hWF h
    have hb : (c.push x).bind (fun c1 => c1.extend xs) = some c' := h
    cases hp : c.push x with
    | none => rw [hp] at hb; cases hb
    | some c1 =>
      rw [hp] at hb
      exact ih (push_wf_cv hWF hp) hb

end ComboVec

/-- States of a `ComboVec` reachable through its public constructors and the
mutating operations of the library; the `from_arr*` constructors carry their
documented precondition (the supplied array is a block of `Some`s followed by
`None`s). -/
inductive Reach (α : Type) : ComboVec α → Prop
  | new (n : Nat) : Reach α (ComboVec.new α n)
  | from_arr (l : List α) : Reach α (ComboVec.from_arr (l.map some))
  | from_arr_and_len (l : List α) (k : Nat) :
      Reach α (ComboVec.from_arr_and_len (l.map some ++ List.replicate k none))
  | push (c c' : ComboVec α) (v : α) : Reach α c → c.push v = some c' → Reach α c'
  | pop (c : ComboVec α) : Reach α c → Reach α c.pop.2
  | truncate (c c' : ComboVec α) (n : Nat) : Reach α c → c.truncate n = some c' →
      Reach α c'
  | clear (c : ComboVec α) : Reach α c → Reach α c.clear
  | remove (c c' : ComboVec α) (i : Nat) (v : α) : Reach α c →
      c.remove i = some (v, c') → Reach α c'
  | swap_remove (c c' : ComboVec α) (i : Nat) (v : α) : Reach α c →
      c.swap_remove i = some (v, c') → Reach α c'
  | resize (c c' : ComboVec α) (n : Nat) (v : α) : Reach α c →
      c.resize n v = some c' → Reach α c'
  | resize_with (σ : Type) (c c' : ComboVec α) (n : Nat) (s s' : σ) (f : σ → σ × α) :
      Reach α c → c.resize_with n s f = some (c', s') → Reach α c'
  | extend (c c' : ComboVec α) (l : List α) : Reach α c → c.extend l = some c' →
      Reach α c'

/-- Every reachable `ComboVec` is well-formed; in particular the
no-spill-until-full invariant holds after every operation. -/
theorem reach_wf {c : ComboVec α} (h : Reach α c) : c.WF := by
  induction h with
  | new n =>
    exact ⟨ReArr.wf_new n, fun hh => absurd hh (by simp [ComboVec.heap_len_def, ComboVec.new])⟩
  | from_arr l =>
    exact ⟨ReArr.wf_from_arr l,
      fun hh => absurd hh (by simp [ComboVec.heap_len_def, ComboVec.from_arr])⟩
  | from_arr_and_len l k =>
    exact ⟨ReArr.wf_from_arr_and_len l k,
      fun hh => absurd hh (by simp [ComboVec.heap_len_def, ComboVec.from_arr_and_len])⟩
  | push c c' v hr heq ih => exact ComboVec.push_wf_cv ih heq
  | pop c hr ih => exact ComboVec.pop_wf_cv ih
  | truncate c c' n hr heq ih => exact ComboVec.truncate_wf_cv ih heq
  | clear c hr ih => exact ComboVec.clear_wf_cv c
  | remove c c' i v hr heq ih => exact ComboVec.remove_wf_cv ih heq
  | swap_remove c c' i v hr heq ih => exact ComboVec.swap_remove_wf_cv ih heq
  | resize c c' n v hr heq ih => exact ComboVec.resize_wf_cv ih heq
  | resize_with σ c c' n s s' f hr heq ih => exact ComboVec.resize_with_wf_cv ih heq
  | extend c c' l hr heq ih => exact ComboVec.extend_wf ih heq

theorem getO_cons_zero {x : Option α} {l : List (Option α)} : getO (x :: l) 0 = x := by
  simp [getO]

theorem getO_cons_succ {x : Option α} {l : List (Option α)} {j : Nat} :
    getO (x :: l) (j + 1) = getO l j := by
  simp [getO]

/-- A slot array whose occupancy matches a count `m` is a block of `Some`s
followed by `None`s. -/
theorem shape_of_occupancy :
    ∀ (l : List (Option α)) (m : Nat), m ≤ l.length →
      (∀ j, j < l.length → ((getO l j).isSome ↔ j < m)) →
      ∃ a : List α, l = a.map some ++ List.replicate (l.length - m) none ∧ a.length = m := by
  intro l
  induction l with
  | nil =>
    intro m hm hj
    have hm0 : m = 0 := by simpa using hm
    subst hm0
    exact ⟨[], by simp, rfl⟩
  | cons x rest ih =>
    intro m hm hj
    cases m with
    | zero =>
      have hx : x = none := by
        have h0 := hj 0 (by simp)
        rw [getO_cons_zero] at h0
        cases x with
        | none => rfl
        | some v => simp at h0
      subst hx
      have hside : ∀ j, j < rest.length → ((getO rest j).isSome ↔ j < 0) := by
        intro j hjl
        have h1 := hj (j + 1) (by simp; omega)
        rw [getO_cons_succ] at h1
        rw [h1]
        omega
      obtain ⟨a, ha, hal⟩ := ih 0 (Nat.zero_le _) hside
      have ha0 : a = [] := List.length_eq_zero.mp hal
      subst ha0
      refine ⟨[], ?_, rfl⟩
      simp only [List.map_nil, List.nil_append] at ha ⊢
      rw [show (none :: rest : List (Option α)).length - 0 = rest.length + 1 by simp]
      rw [List.replicate_succ]
      rw [show rest.length = rest.length - 0 by omega, ← ha]
    | succ k =>
      have h0 := hj 0 (by simp)
      rw [getO_cons_zero] at h0
      cases hx : x with
      | none => rw [hx] at h0; simp at h0
      | some v =>
        have hside : ∀ j, j < rest.length → ((getO rest j).isSome ↔ j < k) := by
          intro j hjl
          have h1 := hj (j + 1) (by simp; omega)
          rw [getO_cons_succ] at h1
          rw [h1]
          omega
        obtain ⟨a, ha, hal⟩ := ih k (by simp at hm; omega) hside
        refine ⟨v :: a, ?_, by simp [hal]⟩
        rw [List.map_cons]
        rw [show (some v :: rest : List (Option α)).length - (k + 1) = rest.length - k by
          simp]
        rw [List.cons_append, ← ha]

theorem reduceOption_map_some (a : List α) : (a.map some).reduceOption = a := by
  induction a with
  | nil => rfl
  | cons x rest ih => simp [List.reduceOption_cons_of_some, ih]

theorem reduceOption_replicate_none (k : Nat) :
    (List.replicate k (none : Option α)).reduceOption = [] := by
  induction k with
  | zero => rfl
  | succ k ih =>
    rw [List.replicate_succ, List.reduceOption_cons_of_none]
    exact ih

theorem getElem?_isSome_iff {l : List α} {i : Nat} : (l[i]?).isSome ↔ i < l.length := by
  by_cases h : i < l.length
  · rw [List.getElem?_eq_getElem h]
    simp [h]
  · rw [List.getElem?_eq_none (by omega)]
    simp
    omega

/-- `ReArr::iter().flatten()` as a list: the values of the occupied slots in
order. -/
def ReArr.toList (r : ReArr α) : List α := r.arr.reduceOption

/-- `ComboVec::iter()` as a list: the stack part chained with the heap part. -/
def ComboVec.toList (c : ComboVec α) : List α := c.arr.toList ++ c.vec

theorem ReArr.toList_spec_arr {r : ReArr α} (hWF : r.WF) :
    r.toList.length = r.arr_len ∧ ∀ i, r.toList[i]? = r.get i := by
  obtain ⟨a, ha, hal⟩ := shape_of_occupancy r.arr r.arr_len r.hlen hWF
  have ht : r.toList = a := by
    show r.arr.reduceOption = a
    rw [ha, List.reduceOption_append, reduceOption_map_some, reduceOption_replicate_none,
      List.append_nil]
  constructor
  · rw [ht, hal]
  · intro i
    rw [ht]
    by_cases hi : i < r.arr_len
    · show a[i]? = getO r.arr i
      rw [ha, getO_append, List.length_map, hal, if_pos hi, getO_map_some]
    · rw [List.getElem?_eq_none (by omega), ReArr.wf_get_none hWF (by omega)]

theorem ComboVec.toList_spec_cv {c : ComboVec α} (hWF : c.WF) :
    c.toList.length = c.len ∧ ∀ i, c.toList[i]? = c.get i := by
  obtain ⟨htl, htg⟩ := ReArr.toList_spec_arr hWF.1
  constructor
  · show (c.arr.toList ++ c.vec).length = c.len
    rw [List.length_append, htl]
    rfl
  · intro i
    show (c.arr.toList ++ c.vec)[i]? = c.get i
    unfold ComboVec.get
    by_cases hi : i < c.arr.arr_len
    · rw [List.getElem?_append_left (by rw [htl]; exact hi)]
      rw [htg i]
      rw [if_pos (show i < c.stack_capacity from Nat.lt_of_lt_of_le hi c.arr.hlen)]
    · rw [List.getElem?_append_right (by rw [htl]; omega), htl]
      by_cases hN : i < c.stack_capacity
      · rw [if_pos hN]
        have hv : c.vec = [] := by
          by_contra hne
          have hNfull : c.arr.arr_len = c.arr.arr.length :=
            hWF.2 (List.length_pos.mpr hne)
          have h2 : i < c.arr.arr.length := hN
          omega
        rw [hv, ReArr.wf_get_none hWF.1 (by omega)]
        simp
      · rw [if_neg hN]
        by_cases hv : c.vec.length = 0
        · have hv0 : c.vec = [] := List.length_eq_zero.mp hv
          rw [hv0]
          simp
        · have hNfull : c.arr.arr_len = c.arr.arr.length :=
            hWF.2 (show (0 : Nat) < c.vec.length by omega)
          rw [show i - c.arr.arr_len = i - c.stack_capacity by
            rw [stack_capacity_def, ← hNfull]]

namespace ComboVec

theorem extend_of_full (l : List α) :
    ∀ (c : ComboVec α), c.arr.arr_len = c.arr.arr.length →
      c.extend l = some ⟨c.arr, c.vec ++ l⟩ := by
  induction l with
  | nil =>
    intro c hfull
    show some c = some ⟨c.arr, c.vec ++ []⟩
    rw [List.append_nil]
  | cons x xs ih =>
    intro c hfull
    show (c.push x).bind (fun c1 => c1.extend xs) = _
    have hp : c.push x = some ⟨c.arr, c.vec ++ [x]⟩ := by
      unfold push
      rw [if_neg (show ¬ c.len < c.stack_capacity by
        show ¬ c.arr.arr_len + c.vec.length < c.arr.arr.length
        omega)]
    rw [hp]
    show ComboVec.extend ⟨c.arr, c.vec ++ [x]⟩ xs = _
    rw [ih ⟨c.arr, c.vec ++ [x]⟩ hfull]
    rw [List.append_assoc]
    rfl

theorem extend_fill (l : List α) :
    ∀ (a : List α) (k : Nat) (c : ComboVec α),
      c.vec = [] → c.arr.arr = a.map some ++ List.replicate k none →
      c.arr.arr_len = a.length →
      ∃ c', c.extend l = some c' ∧ c'.vec = l.drop k ∧
        c'.arr.arr = (a ++ l.take k).map some ++ List.replicate (k - l.length) none ∧
        c'.arr.arr_len = a.length + min k l.length := by
  induction l with
  | nil =>
    intro a k c hv harr hlen
    refine ⟨c, rfl, ?_, ?_, ?_⟩
    · rw [hv, List.drop_nil]
    · simpa using harr
    · simpa using hlen
  | cons x xs ih =>
    intro a k c hv harr hlen
    by_cases hk : 0 < k
    · have hlt : c.len < c.stack_capacity := by
        show c.arr.arr_len + c.vec.length < c.arr.arr.length
        rw [hv, harr, hlen]
        simp
        omega
      have hplt : c.arr.arr_len < c.arr.arr.length := by
        have h1 : c.arr.arr_len + c.vec.length < c.arr.arr.length := hlt
        omega
      obtain ⟨a1, ha1⟩ := @ReArr.push_eq_some_of_lt α c.arr x hplt
      obtain ⟨-, harr1, hlen1⟩ := ReArr.push_eq_some ha1
      have harr1' : a1.arr = (a ++ [x]).map some ++ List.replicate (k - 1) none := by
        rw [harr1, harr, hlen]
        rw [List.set_append_right _ _ (by rw [List.length_map])]
        rw [show a.length - (a.map some).length = 0 by rw [List.length_map]; omega]
        rw [show k = (k - 1) + 1 by omega, List.replicate_succ, List.set_cons_zero]
        rw [List.map_append, List.append_assoc]
        rfl
      have hlen1' : a1.arr_len = (a ++ [x]).length := by
        rw [hlen1, hlen, List.length_append]
        rfl
      have hpush : c.push x = some ⟨a1, c.vec⟩ := by
        unfold push
        rw [if_pos hlt, ha1]
        rfl
      obtain ⟨c', hrec, hv', harr', hlen'⟩ :=
        ih (a ++ [x]) (k - 1) ⟨a1, c.vec⟩ hv harr1' hlen1'
      refine ⟨c', ?_, ?_, ?_, ?_⟩
      · show (c.push x).bind (fun c1 => c1.extend xs) = some c'
        rw [hpush]
        exact hrec
      · rw [hv']
        rw [show (x :: xs).drop k = xs.drop (k - 1) by
          rw [show k = (k - 1) + 1 by omega]; rfl]
      · rw [harr']
        rw [show (x :: xs).take k = x :: xs.take (k - 1) by
          rw [show k = (k - 1) + 1 by omega]; rfl]
        rw [List.append_cons a x (xs.take (k - 1))]
        rw [show k - (x :: xs).length = k - 1 - xs.length by
          rw [List.length_cons]; omega]
      · rw [hlen']
        rw [show min k (x :: xs).length = min (k - 1) xs.length + 1 by
          rw [List.length_cons, show k = (k - 1) + 1 by omega, Nat.succ_min_succ]
          omega]
        rw [List.length_append]
        simp
        omega
    · have hk0 : k = 0 := by omega
      subst hk0
      have hfull : c.arr.arr_len = c.arr.arr.length := by
        rw [harr, hlen]
        simp
      refine ⟨⟨c.arr, c.vec ++ (x :: xs)⟩, extend_of_full (x :: xs) c hfull, ?_, ?_, ?_⟩
      · show c.vec ++ (x :: xs) = (x :: xs).drop 0
        rw [hv, List.drop_zero, List.nil_append]
      · show c.arr.arr = (a ++ (x :: xs).take 0).map some ++
          List.replicate (0 - (x :: xs).length) none
        simpa using harr
      · show c.arr.arr_len = a.length + min 0 (x :: xs).length
        simpa using hlen

end ComboVec

/-- C1: the no-spill-until-full invariant: after every sequence of public
operations (`push`, `pop`, `truncate`, `clear`, `remove`, `swap_remove`,
`resize`, `resize_with`, `extend`) starting from an empty or
sequence-initialized `ComboVec`, the overflow buffer is non-empty only if the
inline region holds exactly `N` elements: `heap_len > 0` implies
`stack_len = stack_capacity`. -/
theorem C1_no_spill_until_full {α : Type} {c : ComboVec α} (h : Reach α c) :
    0 < c.heap_len → c.stack_len = c.stack_capacity :=
  (reach_wf h).2

/-- A one-slot `ComboVec` after one push, used as a concrete reachable state. -/
def c1mid : ComboVec Nat := ⟨⟨[some 5], 1, Nat.le_refl 1⟩, []⟩

/-- A one-slot `ComboVec` after two pushes (one spilled), a concrete reachable
state with a non-empty heap. -/
def c1ex : ComboVec Nat := ⟨⟨[some 5], 1, Nat.le_refl 1⟩, [6]⟩

theorem C1_witness : 0 < c1ex.heap_len ∧ c1ex.stack_len = c1ex.stack_capacity :=
  ⟨by decide,
    C1_no_spill_until_full
      (Reach.push c1mid c1ex 6
        (Reach.push (ComboVec.new Nat 1) c1mid 5 (Reach.new 1) rfl) rfl)
      (by decide)⟩

/-- C2, the code evaluated at the failing input: `ReArr::truncate` with
`new_len > N` panics (the slicing `self.arr[len..]` is out of range for the
backing array), although the claim, and the method's own documentation
("If `new_len` is greater than the current length, this has no effect"),
promise a successful no-op; for `new_len` within capacity the no-op behavior
does hold. -/
theorem C2_truncate_beyond_capacity :
    (ReArr.from_arr [some (1 : Nat), some 2, some 3]).truncate 5 = none ∧
    (ReArr.from_arr [some (1 : Nat), some 2, some 3]).truncate 3 =
      some (ReArr.from_arr [some 1, some 2, some 3]) :=
  ⟨rfl, rfl⟩

/-- C10: constructing a `ReArr` from an iterator (the `FromIterator` impl via
`from_iter_ref`) takes at most the first `N` elements and silently drops any
rest: the resulting length is `min N (iterator length)`, the capacity is `N`,
and the kept elements are the iterator's first elements in order. -/
theorem C10_from_iter_takes_first {α : Type} (n : Nat) (l : List α) :
    ∃ r, ReArr.from_iter α n l = some r ∧ r.len = min n l.length ∧
      r.capacity = n ∧
      ∀ i, r.get i = if i < min n l.length then l[i]? else none := by
  obtain ⟨r, h1, h2, h3⟩ := ReArr.from_iter_eq n l
  refine ⟨r, h1, ?_, ?_, ?_⟩
  · show r.arr_len = _
    exact h3
  · show r.arr.length = n
    rw [h2, List.length_append, List.length_map, List.length_take, List.length_replicate]
    omega
  · intro i
    show getO r.arr i = _
    rw [h2, getO_append, List.length_map, List.length_take]
    rw [show min (min n l.length) l.length = min n l.length by omega]
    by_cases hi : i < min n l.length
    · rw [if_pos hi, if_pos hi, getO_map_some, List.getElem?_take_of_lt (by omega)]
    · rw [if_neg hi, if_neg hi, getO_replicate]
      split <;> rfl

/-- C4 counterexample: `ReArr::resize_with` growing a two-slot empty array
with a stateful counter producer fills both new slots with the same value
(the closure is called once and its result fills the whole slice), while the
claimed per-slot behavior (`resize_with_claimed`) would make them distinct. -/
theorem C4_counterexample :
    ((ReArr.new Nat 2).resize_with 2 0 (fun st => (st + 1, st))).map
      (fun p => (p.1.get 0, p.1.get 1, p.2)) = some (some 0, some 0, 1) ∧
    ((ReArr.new Nat 2).resize_with_claimed 2 0 (fun st => (st + 1, st))).map
      (fun p => (p.1.get 0, p.1.get 1, p.2)) = some (some 0, some 1, 2) ∧
    ((some 0, some 0, 1) : Option Nat × Option Nat × Nat) ≠ (some 0, some 1, 2) :=
  ⟨rfl, rfl, by decide⟩

/-- C4 (amended): growing a `ReArr` with `resize_with` calls the producer
exactly once and fills each slot in `slots[old_filled_count .. new_len)` with
a copy of that single result (so a stateful producer does not yield distinct
values per slot); for `new_len ≤ filled_count` it shrinks by truncating; for
`new_len > N` it panics (`CapacityExceeded`).  The concrete conjunct shows the
single producer call on a two-slot array. -/
theorem C4_resize_with_amended {α σ : Type} (r : ReArr α) (new_len : Nat)
    (s : σ) (f : σ → σ × α) (hWF : r.WF) :
    (r.arr_len < new_len → new_len ≤ r.capacity →
      ∃ r', r.resize_with new_len s f = some (r', (f s).1) ∧
        r'.arr_len = new_len ∧
        (∀ i, i < r.arr_len → r'.get i = r.get i) ∧
        (∀ i, r.arr_len ≤ i → i < new_len → r'.get i = some (f s).2) ∧
        (∀ i, new_len ≤ i → r'.get i = none)) ∧
    (new_len ≤ r.arr_len →
      ∃ r', r.resize_with new_len s f = some (r', s) ∧ r'.arr_len = new_len ∧
        (∀ i, i < new_len → r'.get i = r.get i) ∧
        (∀ i, new_len ≤ i → r'.get i = none)) ∧
    (r.capacity < new_len → r.resize_with new_len s f = none) ∧
    (((ReArr.new Nat 2).resize_with 2 0 (fun st => (st + 1, st))).map
      (fun p => (p.1.arr, p.1.arr_len, p.2)) = some ([some 0, some 0], 2, 1)) := by
  refine ⟨?_, ?_, ?_, rfl⟩
  · intro hg hle
    obtain ⟨r', heq, hlen, hcap, hget⟩ := @ReArr.resize_with_spec α σ r new_len s f hWF hle
    rw [if_pos hg] at heq
    refine ⟨r', heq, hlen, ?_, ?_, ?_⟩
    · intro i hi
      rw [hget i, if_pos (by omega)]
    · intro i hi1 hi2
      rw [hget i, if_neg (by omega), if_pos hi2]
    · intro i hi
      rw [hget i, if_neg (by omega), if_neg (by omega)]
  · intro hs
    have hle : new_len ≤ r.arr.length := Nat.le_trans hs r.hlen
    obtain ⟨r', heq, hlen, hcap, hget⟩ := @ReArr.resize_with_spec α σ r new_len s f hWF hle
    rw [if_neg (by omega)] at heq
    refine ⟨r', heq, hlen, ?_, ?_⟩
    · intro i hi
      rw [hget i, if_pos (by omega)]
    · intro i hi
      rw [hget i, if_neg (by omega), if_neg (by omega)]
  · intro hgt
    rw [ReArr.resize_with_eq_resize, ReArr.resize_none hgt]
    rfl

theorem C4_amended_witness :
    ((ReArr.new Nat 2).resize_with 2 0 (fun st => (st + 1, st))).map
      (fun p => (p.1.arr, p.1.arr_len, p.2)) = some ([some 0, some 0], 2, 1) :=
  (C4_resize_with_amended (ReArr.new Nat 2) 2 0 (fun st => (st + 1, st))
    (by decide)).2.2.2

/-- C3 counterexample: on a `ReArr` with `filled_count = 1`, the index `0` is
below `filled_count`, yet `swap_remove(0)` panics: `pop` empties the slot and
`arr[0].replace(last).unwrap()` unwraps `None` (the code documents this:
"Panics if `index` is out of bounds, or if it is the last value"). -/
theorem C3_counterexample :
    (ReArr.from_arr [some (1 : Nat)]).arr_len = 1 ∧
    (ReArr.from_arr [some (1 : Nat)]).swap_remove 0 = none :=
  ⟨rfl, rfl⟩

/-- C3 (amended): `ReArr::swap_remove(index)` succeeds exactly when
`index + 1 < filled_count`: it pops the last element, places it at
`slot[index]` and returns the value previously there; it fails (panics) when
`index ≥ filled_count`, when `filled_count = 0`, and also when `index` is the
last occupied position (`index + 1 = filled_count`).  `ComboVec::swap_remove`
with `index < N` and an empty overflow buffer delegates to the inline region.
The concrete conjunct runs `swap_remove 0` on `[10, 20, 30]`. -/
theorem C3_swap_remove_amended {α : Type} (r : ReArr α) (index : Nat)
    (c : ComboVec α) (hWF : r.WF) (hvec : c.vec = [])
    (hidx : index < c.stack_capacity) :
    (index + 1 < r.arr_len → ∃ old last r', r.swap_remove index = some (old, r') ∧
      r.get index = some old ∧ r.get (r.arr_len - 1) = some last ∧
      r'.arr_len = r.arr_len - 1 ∧ r'.get index = some last ∧
      ∀ j, j ≠ index → r'.get j = if j + 1 < r.arr_len then r.get j else none) ∧
    (r.arr_len ≤ index + 1 → r.swap_remove index = none) ∧
    (c.swap_remove index =
      (c.arr.swap_remove index).map fun p => (p.1, ⟨p.2, c.vec⟩)) ∧
    (((ReArr.from_arr [some 10, some 20, some (30 : Nat)]).swap_remove 0).map
      (fun p => (p.1, p.2.arr, p.2.arr_len)) = some (10, [some 30, some 20, none], 2)) := by
  refine ⟨?_, ?_, ?_, rfl⟩
  · intro hlt
    obtain ⟨old, last, r', heq, h1, h2, h3, -, h5, h6⟩ := ReArr.swap_remove_spec hWF hlt
    exact ⟨old, last, r', heq, h1, h2, h3, h5, h6⟩
  · intro hge
    exact ReArr.swap_remove_none hWF hge
  · unfold ComboVec.swap_remove
    rw [if_neg (by omega : ¬ index ≥ c.stack_capacity)]
    rw [if_pos (show c.len ≤ c.stack_capacity by
      show c.arr.arr_len + c.vec.length ≤ c.arr.arr.length
      rw [hvec]
      simpa using c.arr.hlen)]

theorem C3_amended_witness :
    ((ReArr.from_arr [some 10, some 20, some (30 : Nat)]).swap_remove 0).map
      (fun p => (p.1, p.2.arr, p.2.arr_len)) = some (10, [some 30, some 20, none], 2) :=
  (C3_swap_remove_amended (ReArr.from_arr [some 10, some 20, some 30]) 0
    (ComboVec.new Nat 1) (by decide) rfl (by decide)).2.2.2

/-- C7: starting from an empty `ComboVec`, pushing exactly `N` elements
leaves `spilled() = false`, while pushing `N + 1` elements leaves
`spilled() = true` with exactly one element on the heap and the first `N`
elements still in the inline region, in order. -/
theorem C7_push_boundary {α : Type} (n : Nat) (l l2 : List α)
    (h : l.length = n) (h2 : l2.length = n + 1) :
    (∃ c, (ComboVec.new α n).extend l = some c ∧ c.spilled = false) ∧
    (∃ c, (ComboVec.new α n).extend l2 = some c ∧ c.spilled = true ∧
      c.heap_len = 1 ∧ c.stack_len = n ∧ ∀ i, i < n → c.arr.get i = l2[i]?) := by
  have hbase : ∀ l3 : List α, ∃ c', (ComboVec.new α n).extend l3 = some c' ∧
      c'.vec = l3.drop n ∧
      c'.arr.arr = (l3.take n).map some ++ List.replicate (n - l3.length) none ∧
      c'.arr.arr_len = min n l3.length := by
    intro l3
    obtain ⟨c', h1, h2, h3, h4⟩ := ComboVec.extend_fill l3 [] n (ComboVec.new α n)
      rfl (by show List.replicate n none = _; simp) rfl
    exact ⟨c', h1, h2, by simpa using h3, by simpa using h4⟩
  constructor
  · obtain ⟨c', h1, h2, h3, h4⟩ := hbase l
    refine ⟨c', h1, ?_⟩
    show decide (0 < c'.heap_len) = false
    have hv : c'.vec = [] := by
      rw [h2, ← h, List.drop_length]
    simp [ComboVec.heap_len_def, hv]
  · obtain ⟨c', h1, hv, ha, hl⟩ := hbase l2
    have hvl : c'.vec.length = 1 := by
      rw [hv, List.length_drop, h2]
      omega
    refine ⟨c', h1, ?_, hvl, ?_, ?_⟩
    · show decide (0 < c'.heap_len) = true
      simp [ComboVec.heap_len_def, hvl]
    · show c'.arr.arr_len = n
      rw [hl, h2]
      omega
    · intro i hi
      show getO c'.arr.arr i = _
      rw [ha, getO_append, List.length_map, List.length_take]
      rw [if_pos (by omega), getO_map_some, List.getElem?_take_of_lt (by omega)]

theorem C7_witness :
    (∃ c, (ComboVec.new Nat 1).extend [4] = some c ∧ c.spilled = false) ∧
    (∃ c, (ComboVec.new Nat 1).extend [4, 5] = some c ∧ c.spilled = true ∧
      c.heap_len = 1 ∧ c.stack_len = 1 ∧ ∀ i, i < 1 → c.arr.get i = [4, 5][i]?) :=
  C7_push_boundary 1 [4] [4, 5] rfl rfl

/-- C9: `get` is total and never panics, for both `ReArr` and `ComboVec`: on
every reachable container it returns exactly the element of the iteration
sequence at the queried logical index — `some` precisely when the index is
below the current length, and `none` at or beyond it (including unoccupied
inline slots and indices beyond `N` plus the overflow length). -/
theorem C9_get_total {α : Type} {r : ReArr α} {c : ComboVec α}
    (hr : ReachArr α r) (hc : Reach α c) (i j : Nat) :
    (r.get i = r.toList[i]? ∧ ((r.get i).isSome ↔ i < r.len)) ∧
    (c.get j = c.toList[j]? ∧ ((c.get j).isSome ↔ j < c.len)) := by
  have hwr := reachArr_wf hr
  have hwc := reach_wf hc
  obtain ⟨hlr, hgr⟩ := ReArr.toList_spec_arr hwr
  obtain ⟨hlc, hgc⟩ := ComboVec.toList_spec_cv hwc
  refine ⟨⟨(hgr i).symm, ?_⟩, ⟨(hgc j).symm, ?_⟩⟩
  · rw [← hgr i, getElem?_isSome_iff, hlr]
    exact Iff.rfl
  · rw [← hgc j, getElem?_isSome_iff, hlc]

theorem C9_witness :
    ((ReArr.new Nat 2).get 0 = (ReArr.new Nat 2).toList[0]? ∧
      (((ReArr.new Nat 2).get 0).isSome ↔ 0 < (ReArr.new Nat 2).len)) ∧
    (c1ex.get 1 = c1ex.toList[1]? ∧ ((c1ex.get 1).isSome ↔ 1 < c1ex.len)) :=
  C9_get_total (ReachArr.new 2)
    (Reach.push c1mid c1ex 6
      (Reach.push (ComboVec.new Nat 1) c1mid 5 (Reach.new 1) rfl) rfl)
    0 1

/-- C6: for a reachable `ComboVec` and `new_len ≤ len`: when
`new_len ≥ N`, `truncate` only truncates the overflow buffer to
`new_len - N` and leaves the inline region untouched; when `new_len < N`, it
truncates the inline region to `new_len` elements and clears the overflow
buffer entirely; the total length becomes `new_len`.  Concretely, on
`[1,2,3,4,5]` with `N = 3`, `truncate 2` leaves inline `[1,2]` and an empty
overflow buffer. -/
theorem C6_truncate_split {α : Type} (c : ComboVec α) (new_len : Nat)
    (h : Reach α c) (hle : new_len ≤ c.len) :
    (∃ c', c.truncate new_len = some c' ∧ c'.len = new_len ∧
      (c.stack_capacity ≤ new_len →
        c'.arr = c.arr ∧ c'.vec = c.vec.take (new_len - c.stack_capacity)) ∧
      (new_len < c.stack_capacity →
        c'.vec = [] ∧ c'.stack_len = new_len ∧
        ∀ j, j < new_len → c'.get j = c.get j)) ∧
    (Option.map (fun c6 => (c6.arr.arr, c6.arr.arr_len, c6.vec))
      (((ComboVec.new Nat 3).extend [1, 2, 3, 4, 5]).bind (fun c5 => c5.truncate 2))
      = some ([some 1, some 2, none], 2, [])) := by
  have hWF := reach_wf h
  have hle2 : new_len ≤ c.arr.arr_len + c.vec.length := hle
  have hcl := c.arr.hlen
  refine ⟨?_, rfl⟩
  unfold ComboVec.truncate
  rw [if_neg (by omega : ¬ new_len > c.len)]
  by_cases hge : new_len ≥ c.stack_capacity
  · rw [if_pos hge]
    have hge2 : c.arr.arr.length ≤ new_len := hge
    refine ⟨_, rfl, ?_, fun _ => ⟨rfl, rfl⟩, ?_⟩
    · show c.arr.arr_len + (c.vec.take (new_len - c.stack_capacity)).length = new_len
      rw [List.length_take]
      show c.arr.arr_len + min (new_len - c.arr.arr.length) c.vec.length = new_len
      by_cases hv : c.vec.length = 0
      · omega
      · have hN : c.arr.arr_len = c.arr.arr.length :=
          hWF.2 (show (0 : Nat) < c.vec.length by omega)
        omega
    · intro hlt2
      exact absurd hlt2 (by omega)
  · rw [if_neg hge]
    have hlt : new_len < c.arr.arr.length := by
      have h4 : ¬ c.arr.arr.length ≤ new_len := hge
      omega
    obtain ⟨a, ha⟩ := ReArr.truncate_of_le (Nat.le_of_lt hlt)
    obtain ⟨-, hlen2, hcap2, hget2⟩ := ReArr.truncate_eq_some ha
    have hminr : min c.arr.arr_len new_len = new_len := by
      by_cases hv : c.vec.length = 0
      · omega
      · have hN : c.arr.arr_len = c.arr.arr.length :=
          hWF.2 (show (0 : Nat) < c.vec.length by omega)
        omega
    have hlen3 : a.arr_len = new_len := by rw [hlen2, hminr]
    rw [ha]
    refine ⟨_, rfl, ?_, ?_, ?_⟩
    · show a.arr_len + ([] : List α).length = new_len
      rw [hlen3]
      rfl
    · intro hge2
      exact absurd hge2 (by omega)
    · intro hlt2
      refine ⟨rfl, hlen3, ?_⟩
      intro j hj
      unfold ComboVec.get
      rw [if_pos (show j < ComboVec.stack_capacity ⟨a, []⟩ by
        show j < a.arr.length
        rw [hcap2]
        omega)]
      rw [if_pos (show j < c.stack_capacity by show j < c.arr.arr.length; omega)]
      show a.get j = c.arr.get j
      rw [hget2 j, if_pos hj]

theorem C6_witness :
    Option.map (fun c6 => (c6.arr.arr, c6.arr.arr_len, c6.vec))
      (((ComboVec.new Nat 3).extend [1, 2, 3, 4, 5]).bind (fun c5 => c5.truncate 2))
      = some ([some 1, some 2, none], 2, []) :=
  (C6_truncate_split (ComboVec.new Nat 3) 0 (Reach.new 3) (Nat.zero_le 0)).2

/-- C8: `pop` removes and returns the element at the highest logical index —
from the overflow buffer when it is non-empty, else from the inline region —
and returns `none` exactly when the container is empty, leaving it unchanged
in that case.  Concretely, after pushing `1,2,3,4,5` with `N = 3`, five pops
return `5,4,3,2,1` and a sixth returns `none`. -/
theorem C8_pop_highest {α : Type} {c : ComboVec α} (h : Reach α c) :
    (c.len = 0 → c.pop = (none, c)) ∧
    (0 < c.len → ∃ v, c.pop.1 = some v ∧ c.get (c.len - 1) = some v ∧
      c.pop.2.len = c.len - 1 ∧ ∀ i, i < c.len - 1 → c.pop.2.get i = c.get i) ∧
    (Option.map (fun c5 =>
        (c5.pop.1, c5.pop.2.pop.1, c5.pop.2.pop.2.pop.1,
         c5.pop.2.pop.2.pop.2.pop.1, c5.pop.2.pop.2.pop.2.pop.2.pop.1,
         c5.pop.2.pop.2.pop.2.pop.2.pop.2.pop.1,
         c5.pop.2.pop.2.pop.2.pop.2.pop.2.pop.2.len))
      ((ComboVec.new Nat 3).extend [1, 2, 3, 4, 5])
      = some (some 5, some 4, some 3, some 2, some 1, none, 0)) := by
  have hWF := reach_wf h
  refine ⟨?_, ?_, rfl⟩
  · intro h0
    have h0f : c.arr.arr_len + c.vec.length = 0 := h0
    have hv : c.vec = [] := List.length_eq_zero.mp (by omega)
    have ha : c.arr.arr_len = 0 := by omega
    unfold ComboVec.pop
    rw [if_pos (by rw [hv]; rfl), ReArr.pop_of_len_zero ha]
  · intro h0
    have h0f : 0 < c.arr.arr_len + c.vec.length := h0
    cases hcv : c.vec with
    | nil =>
      have hpos : 0 < c.arr.arr_len := by
        rw [hcv] at h0f
        simpa using h0f
      obtain ⟨hfst, harr1, hlen1⟩ := ReArr.pop_of_len_pos hpos
      obtain ⟨v, hv⟩ := ReArr.wf_get_some hWF.1
        (show c.arr.arr_len - 1 < c.arr.arr_len by omega)
      have hpopc : c.pop = ((c.arr.pop).1, ⟨(c.arr.pop).2, c.vec⟩) := by
        unfold ComboVec.pop
        rw [if_pos (by rw [hcv]; rfl)]
      have hlenf : c.len - 1 = c.arr.arr_len - 1 := by
        show c.arr.arr_len + c.vec.length - 1 = _
        rw [hcv]
        simp
      refine ⟨v, ?_, ?_, ?_, ?_⟩
      · rw [hpopc]
        show (c.arr.pop).1 = some v
        rw [hfst]
        exact hv
      · rw [hlenf]
        unfold ComboVec.get
        rw [if_pos (show c.arr.arr_len - 1 < c.stack_capacity from
          Nat.lt_of_lt_of_le (by omega) c.arr.hlen)]
        exact hv
      · rw [hpopc]
        show (c.arr.pop).2.arr_len + c.vec.length = c.len - 1
        rw [hlen1, hlenf, hcv]
        simp
      · intro i hi
        rw [hpopc]
        show ComboVec.get ⟨(c.arr.pop).2, c.vec⟩ i = c.get i
        have hcap : (c.arr.pop).2.arr.length = c.arr.arr.length := ReArr.pop_capacity c.arr
        have hi2 : i < c.arr.arr_len - 1 := by rw [hlenf] at hi; exact hi
        unfold ComboVec.get
        by_cases hiN : i < c.stack_capacity
        · rw [if_pos (show i < ComboVec.stack_capacity ⟨(c.arr.pop).2, c.vec⟩ by
            show i < (c.arr.pop).2.arr.length
            rw [hcap]
            exact hiN), if_pos hiN]
          exact ReArr.pop_get hpos i (by omega)
        · exact absurd (Nat.lt_of_lt_of_le (show i < c.arr.arr_len by omega) c.arr.hlen) hiN
    | cons x xs =>
      have hvne : c.vec ≠ [] := by rw [hcv]; simp
      have hvpos : 0 < c.vec.length := List.length_pos.mpr hvne
      have hN : c.arr.arr_len = c.arr.arr.length := hWF.2 hvpos
      have hpopc : c.pop = (c.vec.getLast?, ⟨c.arr, c.vec.dropLast⟩) := by
        unfold ComboVec.pop
        rw [if_neg (by rw [hcv]; simp)]
      obtain ⟨v, hv⟩ : ∃ v, c.vec.getLast? = some v :=
        Option.isSome_iff_exists.mp (List.getLast?_isSome.mpr hvne)
      refine ⟨v, ?_, ?_, ?_, ?_⟩
      · rw [hpopc]
        exact hv
      · unfold ComboVec.get
        rw [if_neg (show ¬ c.len - 1 < c.stack_capacity by
          show ¬ c.arr.arr_len + c.vec.length - 1 < c.arr.arr.length
          omega)]
        rw [show c.len - 1 - c.stack_capacity = c.vec.length - 1 by
          show c.arr.arr_len + c.vec.length - 1 - c.arr.arr.length = _
          omega]
        rw [← List.getLast?_eq_getElem?]
        exact hv
      · rw [hpopc]
        show c.arr.arr_len + c.vec.dropLast.length = c.len - 1
        rw [List.length_dropLast]
        show _ = c.arr.arr_len + c.vec.length - 1
        omega
      · intro i hi
        have hif : i < c.arr.arr_len + c.vec.length - 1 := hi
        rw [hpopc]
        show ComboVec.get ⟨c.arr, c.vec.dropLast⟩ i = c.get i
        unfold ComboVec.get
        by_cases hiN : i < c.stack_capacity
        · rw [if_pos (show i < ComboVec.stack_capacity ⟨c.arr, c.vec.dropLast⟩ from hiN),
            if_pos hiN]
        · rw [if_neg (show ¬ i < ComboVec.stack_capacity ⟨c.arr, c.vec.dropLast⟩ from hiN),
            if_neg hiN]
          show c.vec.dropLast[i - c.stack_capacity]? = _
          rw [List.getElem?_dropLast]
          rw [if_pos (show i - c.stack_capacity < c.vec.length - 1 by
            have hiN2 : ¬ i < c.arr.arr.length := hiN
            show i - c.arr.arr.length < c.vec.length - 1
            omega)]

theorem C8_witness :
    Option.map (fun c5 =>
        (c5.pop.1, c5.pop.2.pop.1, c5.pop.2.pop.2.pop.1,
         c5.pop.2.pop.2.pop.2.pop.1, c5.pop.2.pop.2.pop.2.pop.2.pop.1,
         c5.pop.2.pop.2.pop.2.pop.2.pop.2.pop.1,
         c5.pop.2.pop.2.pop.2.pop.2.pop.2.pop.2.len))
      ((ComboVec.new Nat 3).extend [1, 2, 3, 4, 5])
      = some (some 5, some 4, some 3, some 2, some 1, none, 0) :=
  (@C8_pop_highest Nat (ComboVec.new Nat 3) (Reach.new 3)).2.2

/-- C5: for a reachable `ComboVec`, removing at an in-range index below `N`
removes and returns the element at that logical index and shifts the rest of
the logical sequence left by one; when the overflow buffer was non-empty, its
first element moves into the vacated last inline slot, so the inline region
stays full.  Concretely, with `N = 3` and contents `[1,2,3,4,5]`, `remove 1`
returns `2` and leaves inline `[1,3,4]` and overflow `[5]`. -/
theorem C5_remove_inline {α : Type} (c : ComboVec α) (index : Nat)
    (h : Reach α c) (h1 : index < c.stack_capacity) (h2 : index < c.len) :
    (∃ v c', c.remove index = some (v, c') ∧ c.get index = some v ∧
      c'.len = c.len - 1 ∧
      (∀ j, j < c.len - 1 → c'.get j = c.get (if j < index then j else j + 1)) ∧
      (c.vec ≠ [] → c'.stack_len = c.stack_capacity)) ∧
    (Option.map (fun p => (p.1, p.2.arr.arr, p.2.arr.arr_len, p.2.vec))
      (((ComboVec.new Nat 3).extend [1, 2, 3, 4, 5]).bind (fun c5 => c5.remove 1))
      = some (2, [some 1, some 3, some 4], 3, [5])) := by
  have hWF := reach_wf h
  have h1f : index < c.arr.arr.length := h1
  have h2f : index < c.arr.arr_len + c.vec.length := h2
  have hcl := c.arr.hlen
  have hget_c : ∀ m, m < c.arr.arr.length → c.get m = c.arr.get m := by
    intro m hm
    unfold ComboVec.get
    rw [if_pos (show m < c.stack_capacity from hm)]
  have hget_c_hi : ∀ m, ¬ m < c.arr.arr.length →
      c.get m = c.vec[m - c.arr.arr.length]? := by
    intro m hm
    unfold ComboVec.get
    rw [if_neg (show ¬ m < c.stack_capacity from hm)]
    rfl
  refine ⟨?_, rfl⟩
  cases hcv : c.vec with
  | nil =>
    have hia : index < c.arr.arr_len := by
      rw [hcv] at h2f
      simpa using h2f
    obtain ⟨v, r', heq, hgv, hlen2, hcap2, hget2⟩ := ReArr.remove_spec hWF.1 hia
    have hrem : c.remove index = some (v, ⟨r', []⟩) := by
      unfold ComboVec.remove
      rw [if_neg (by omega : ¬ index ≥ c.stack_capacity), heq, hcv]
      rfl
    have hget_c1 : ∀ m, m < c.arr.arr.length →
        ComboVec.get ⟨r', ([] : List α)⟩ m = r'.get m := by
      intro m hm
      unfold ComboVec.get
      rw [if_pos (show m < ComboVec.stack_capacity ⟨r', ([] : List α)⟩ by
        show m < r'.arr.length
        rw [hcap2]
        exact hm)]
    refine ⟨v, ⟨r', []⟩, hrem, ?_, ?_, ?_, ?_⟩
    · rw [hget_c index h1f]
      exact hgv
    · show r'.arr_len + ([] : List α).length = c.len - 1
      rw [hlen2]
      show c.arr.arr_len - 1 + ([] : List α).length = c.arr.arr_len + c.vec.length - 1
      rw [hcv]
      simp
    · intro j hj
      have hjf : j < c.arr.arr_len + c.vec.length - 1 := hj
      rw [hcv] at hjf
      simp at hjf
      rw [hget_c1 j (by omega), hget2 j]
      by_cases hc1 : j < index
      · rw [if_pos hc1, if_pos hc1, hget_c j (by omega)]
      · rw [if_neg hc1, if_pos (show j + 1 < c.arr.arr_len by omega), if_neg hc1,
          hget_c (j + 1) (by omega)]
    · intro hne
      exact absurd rfl hne
  | cons x xs =>
    have hvpos : 0 < c.vec.length := by rw [hcv]; simp
    have hN : c.arr.arr_len = c.arr.arr.length := hWF.2 hvpos
    have hia : index < c.arr.arr_len := by omega
    obtain ⟨v, r', heq, hgv, hlen2, hcap2, hget2⟩ := ReArr.remove_spec hWF.1 hia
    have hr'lt : r'.arr_len < r'.arr.length := by
      rw [hlen2, hcap2]
      omega
    obtain ⟨a, hp⟩ := @ReArr.push_eq_some_of_lt α r' x hr'lt
    obtain ⟨-, harr3, hlen3⟩ := ReArr.push_eq_some hp
    have hrem : c.remove index = some (v, ⟨a, xs⟩) := by
      unfold ComboVec.remove
      rw [if_neg (by omega : ¬ index ≥ c.stack_capacity), heq, hcv]
      show (r'.push x).map (fun a2 => (v, (⟨a2, xs⟩ : ComboVec α))) = some (v, ⟨a, xs⟩)
      rw [hp]
      rfl
    have hacap : a.arr.length = c.arr.arr.length := by
      rw [ReArr.push_capacity hp, hcap2]
    have halen : a.arr_len = c.arr.arr_len := by
      rw [hlen3, hlen2]
      omega
    have hget_ca : ∀ m, m < c.arr.arr.length →
        ComboVec.get ⟨a, xs⟩ m = a.get m := by
      intro m hm
      unfold ComboVec.get
      rw [if_pos (show m < ComboVec.stack_capacity ⟨a, xs⟩ by
        show m < a.arr.length
        rw [hacap]
        exact hm)]
    have hget_ca_hi : ∀ m, ¬ m < c.arr.arr.length →
        ComboVec.get ⟨a, xs⟩ m = xs[m - c.arr.arr.length]? := by
      intro m hm
      unfold ComboVec.get
      rw [if_neg (show ¬ m < ComboVec.stack_capacity ⟨a, xs⟩ by
        show ¬ m < a.arr.length
        rw [hacap]
        exact hm)]
      show xs[m - a.arr.length]? = _
      rw [hacap]
    refine ⟨v, ⟨a, xs⟩, hrem, ?_, ?_, ?_, ?_⟩
    · rw [hget_c index h1f]
      exact hgv
    · show a.arr_len + xs.length = c.len - 1
      rw [halen]
      show c.arr.arr_len + xs.length = c.arr.arr_len + c.vec.length - 1
      rw [hcv]
      rw [List.length_cons]
      omega
    · intro j hj
      have hjf : j < c.arr.arr_len + c.vec.length - 1 := hj
      rw [hcv, List.length_cons] at hjf
      by_cases hjN : j < c.arr.arr.length
      · rw [hget_ca j hjN]
        rw [ReArr.push_get hp j]
        by_cases hje : j = r'.arr_len
        · rw [if_pos hje]
          have hjv : j = c.arr.arr_len - 1 := by rw [hje, hlen2]
          rw [if_neg (show ¬ j < index by omega)]
          rw [hget_c_hi (j + 1) (by omega)]
          rw [show j + 1 - c.arr.arr.length = 0 by omega]
          rw [hcv, List.getElem?_cons_zero]
        · rw [if_neg hje]
          rw [hget2 j]
          by_cases hc1 : j < index
          · rw [if_pos hc1, if_pos hc1, hget_c j (by omega)]
          · have hjlt : j + 1 < c.arr.arr_len := by
              have hne2 : j ≠ c.arr.arr_len - 1 := by
                rw [hlen2] at hje
                exact hje
              omega
            rw [if_neg hc1, if_pos hjlt, if_neg hc1, hget_c (j + 1) (by omega)]
      · rw [hget_ca_hi j hjN]
        rw [if_neg (show ¬ j < index by omega)]
        rw [hget_c_hi (j + 1) (by omega)]
        rw [show j + 1 - c.arr.arr.length = (j - c.arr.arr.length) + 1 by omega]
        rw [hcv, List.getElem?_cons_succ]
    · intro hne
      show a.arr_len = c.stack_capacity
      rw [halen]
      exact hN

theorem C5_witness :
    Option.map (fun p => (p.1, p.2.arr.arr, p.2.arr.arr_len, p.2.vec))
      (((ComboVec.new Nat 3).extend [1, 2, 3, 4, 5]).bind (fun c5 => c5.remove 1))
      = some (2, [some 1, some 3, some 4], 3, [5]) :=
  (C5_remove_inline c1mid 0
    (Reach.push (ComboVec.new Nat 1) c1mid 5 (Reach.new 1) rfl)
    (by decide) (by decide)).2
